import Mathlib

/-!
# gopipe: a shallow embedding of the codecs, the registry, the digest stage and the LPM stage

Conventions of the embedding.

* A Go `string` and a Go `[]byte` are both finite byte sequences (`List UInt8`); the
  conversions `string(b)` and `[]byte(s)` copy the bytes and are the identity here.
* A Go `map[string]interface{}` is an association list read with `Data.get` and written
  with `Data.set` (first binding wins on read, the binding is replaced on write).
* A Go function that can return an error or panic returns a `Result`.
* Functions of packages that are not part of the repository and are not elementary
  (the CSV reader, the float parser, the MD5 hash, the JSON decoder, the CIDR parser of
  the prefix tree) are parameters of the definitions that call them; concrete models of
  them are given for evaluation on examples.
-/

namespace Gopipe

/-! ## Basic data -/

/-- A Go string (equally a byte slice): a finite sequence of bytes. -/
abbrev GoString := List UInt8

/-- The bytes of an ASCII literal. -/
def ascii (s : String) : GoString := s.toList.map (fun c => UInt8.ofNat c.toNat)

/-- A Go `float64`: the finite value `mant * 2 ^ exp`, an infinity, or NaN. -/
inductive Float64 where
  | finite (mant exp : Int) : Float64
  | inf (negative : Bool) : Float64
  | nan : Float64
  deriving DecidableEq, Repr

/-- The conversion `int(f)` of a `float64` to the 64-bit `int`: the fraction is discarded
(truncation towards zero). When the result does not fit, or for NaN and the infinities,
Go leaves the value to the implementation; the model returns the smallest `int64`, as the
amd64 conversion instruction does. -/
def Float64.toInt : Float64 → Int
  | Float64.finite mant exp =>
    let v := if 0 ≤ exp then mant * 2 ^ exp.toNat else Int.tdiv mant (2 ^ (-exp).toNat)
    if -(2 ^ 63) ≤ v ∧ v < 2 ^ 63 then v else -(2 ^ 63)
  | _ => -(2 ^ 63)

/-- A dynamically typed Go value (`interface{}`) as the pipeline uses it. -/
inductive Value where
  /-- the nil interface -/
  | null : Value
  | bool (b : Bool) : Value
  /-- a Go `string` -/
  | str (s : GoString) : Value
  /-- a Go `[]byte` -/
  | bytes (b : List UInt8) : Value
  /-- a Go `int64` -/
  | int64 (i : Int) : Value
  /-- a Go `float64` -/
  | float64 (f : Float64) : Value
  /-- a `json.Number` (the literal text of a JSON number, kept by `UseNumber`) -/
  | number (n : GoString) : Value
  /-- a Go `[]interface{}` -/
  | arr (xs : List Value) : Value
  /-- a non-nil Go `map[string]interface{}` -/
  | obj (m : List (GoString × Value)) : Value

/-- A Go `map[string]interface{}` (non-nil): `Event.Data`, a decoded record, a
configuration, the metadata of a prefix. -/
abbrev Data := List (GoString × Value)

/-- Reading `m[k]` with the "comma ok" form: the value bound to `k`, if any. -/
def Data.get : Data → GoString → Option Value
  | [], _ => none
  | (k', v) :: rest, k => if k' = k then some v else Data.get rest k

/-- Reading `m[k]` in an expression: a missing key reads as the nil interface. -/
def Data.index (m : Data) (k : GoString) : Value := (m.get k).getD Value.null

/-- The assignment `m[k] = v`. -/
def Data.set : Data → GoString → Value → Data
  | [], k, v => [(k, v)]
  | (k', v') :: rest, k, v => if k' = k then (k, v) :: rest else (k', v') :: Data.set rest k v

/-- What a Go call produces: a value, a returned error, or a panic. -/
inductive Result (α : Type) where
  | ok (a : α) : Result α
  | err (msg : String) : Result α
  | panic (msg : String) : Result α

/-- Feeding the value of a call that succeeded to the next call; an error or a panic
ends the computation. -/
def Result.bind {α β : Type} (r : Result α) (f : α → Result β) : Result β :=
  match r with
  | Result.ok a => f a
  | Result.err msg => Result.err msg
  | Result.panic msg => Result.panic msg

/-! ## Elementary functions of the `strings` and `bytes` packages -/

/-- Model of `strings.Index` / `bytes.Index`: the position of the first occurrence of `sep`
in `s` (`none` for Go's `-1`). -/
def Index : GoString → GoString → Option Nat
  | [], sep => if sep = [] then some 0 else none
  | c :: cs, sep => if sep.isPrefixOf (c :: cs) then some 0 else (Index cs sep).map (· + 1)

/-- Model of `strings.Replace(s, old, new, n)` for `n ≥ 0`: the first `n` occurrences of
`old`, found from left to right without overlap, are replaced by `new`. (For an empty
`old` Go advances by one rune per replacement; the model is exact for an empty `old` only
when `n ≤ 1`. The repository calls it with a non-empty constant `old` and `n = 1`.) -/
def Replace (s old new : GoString) : Nat → GoString
  | 0 => s
  | n + 1 =>
    match Index s old with
    | none => s
    | some j => s.take j ++ new ++ Replace (s.drop (j + old.length)) old new n

/-! ## core/linecodecs.go: the Raw and String codecs -/

/-- `RawLineCodec.FromBytes`: wraps the input under the key `bytes`. -/
def RawLineCodec.FromBytes (data : List UInt8) : Result Data :=
  Result.ok (Data.set [] (ascii "bytes") (Value.bytes data))

/-- `RawLineCodec.ToBytes`: `data["bytes"].([]byte)`; the type assertion panics when the
value is not a byte slice. -/
def RawLineCodec.ToBytes (data : Data) : Result (List UInt8) :=
  match data.index (ascii "bytes") with
  | Value.bytes b => Result.ok b
  | _ => Result.panic "interface conversion: interface {} is not []uint8"

/-- `StringLineCodec.FromBytes`: wraps `string(data)` under the key `message`. -/
def StringLineCodec.FromBytes (data : List UInt8) : Result Data :=
  Result.ok (Data.set [] (ascii "message") (Value.str data))

/-- `StringLineCodec.ToBytes`: `[]byte(data["message"].(string))`; the type assertion
panics when the value is not a string. -/
def StringLineCodec.ToBytes (data : Data) : Result (List UInt8) :=
  match data.index (ascii "message") with
  | Value.str s => Result.ok s
  | _ => Result.panic "interface conversion: interface {} is not string"

/-! ## core/registry.go and the `init` functions -/

/-- The constructor functions defined in the repository. -/
inductive Ctor where
  | NewLPMProc | NewMd5Proc
  | NewFileJSONOutput | NewFileCSVOutput
  | NewUDPJSONOutput | NewUDPCSVOutput | NewUDPRawOutput | NewUDPStrOutput
  deriving DecidableEq, Repr

/-- The codec implementations of core/linecodecs.go. -/
inductive CodecKind where
  | JSONLineCodec | CSVLineCodec | RawLineCodec | StringLineCodec
  deriving DecidableEq, Repr

/-- The `Encoder` of the stage a constructor builds (`none` for the two proc stages,
which have no encoder). -/
def Ctor.encoder : Ctor → Option CodecKind
  | Ctor.NewLPMProc => none
  | Ctor.NewMd5Proc => none
  | Ctor.NewFileJSONOutput => some CodecKind.JSONLineCodec
  | Ctor.NewFileCSVOutput => some CodecKind.CSVLineCodec
  | Ctor.NewUDPJSONOutput => some CodecKind.JSONLineCodec
  | Ctor.NewUDPCSVOutput => some CodecKind.CSVLineCodec
  | Ctor.NewUDPRawOutput => some CodecKind.RawLineCodec
  | Ctor.NewUDPStrOutput => some CodecKind.StringLineCodec

/-- `Registry`: component name to constructor. -/
abbrev Registry := List (GoString × Ctor)

/-- The lookup `registry[name]` with the "comma ok" form. -/
def Registry.get : Registry → GoString → Option Ctor
  | [], _ => none
  | (k, c) :: rest, name => if k = name then some c else Registry.get rest name

/-- The assignment `registry[name] = c`. -/
def Registry.set : Registry → GoString → Ctor → Registry
  | [], name, c => [(name, c)]
  | (k, c') :: rest, name, c =>
    if k = name then (name, c) :: rest else (k, c') :: Registry.set rest name c

/-- `GetRegistryInstance`: the global registry, created empty on first use. The global
variable is `none` while it is nil. -/
def GetRegistryInstance (registry : Option Registry) : Registry :=
  match registry with
  | none => []
  | some r => r

/-- One statement `GetRegistryInstance()[name] = c` on the global variable. -/
def register (registry : Option Registry) (name : String) (c : Ctor) : Option Registry :=
  some ((GetRegistryInstance registry).set (ascii name) c)

/-- `init` of proc/lpm.go. -/
def init_lpm (g : Option Registry) : Option Registry :=
  register g "LPMProc" Ctor.NewLPMProc

/-- `init` of proc/md5.go. -/
def init_md5 (g : Option Registry) : Option Registry :=
  register g "Md5Proc" Ctor.NewMd5Proc

/-- `init` of output/file.go. -/
def init_file (g : Option Registry) : Option Registry :=
  register (register g "FileJSONOutput" Ctor.NewFileJSONOutput)
    "FileCSVOutput" Ctor.NewFileCSVOutput

/-- `init` of output/udp.go, statement by statement. -/
def init_udp (g : Option Registry) : Option Registry :=
  register (register (register (register g
    "UDPJSONOutput" Ctor.NewUDPJSONOutput)
    "UDPCSVOutput" Ctor.NewUDPStrOutput)
    "UDPRawOutput" Ctor.NewUDPRawOutput)
    "UDPStrOutput" Ctor.NewUDPStrOutput

/-- The registry after process initialization: every `init` has run once, starting from
the nil global variable (the names are pairwise distinct, so the order of the packages
does not matter). -/
def initialRegistry : Registry :=
  GetRegistryInstance (init_udp (init_file (init_md5 (init_lpm none))))

/-- Model of `bytes.SplitAfterN(s, sep, n)` for a non-empty `sep` and `n ≥ 0`: at most `n`
pieces, each but the last ending with `sep`. -/
def SplitAfterN (s sep : GoString) : Nat → List GoString
  | 0 => []
  | 1 => [s]
  | n + 2 =>
    match Index s sep with
    | none => [s]
    | some m => s.take (m + sep.length) :: SplitAfterN (s.drop (m + sep.length)) sep (n + 1)

/-- Model of `bytes.Trim(s, cutset)` for an ASCII `cutset`: the leading and trailing bytes
that occur in `cutset` are removed. -/
def Trim (s cutset : GoString) : GoString :=
  ((s.dropWhile (fun c => cutset.contains c)).reverse.dropWhile
    (fun c => cutset.contains c)).reverse

/-- Model of `bytes.Join(parts, sep)`. -/
def Join : List GoString → GoString → GoString
  | [], _ => []
  | [a], _ => a
  | a :: b :: rest, sep => a ++ sep ++ Join (b :: rest) sep

/-- The size of the buffer of `bufio.NewReader`. -/
def defaultBufSize : Nat := 4096

/-- Model of one call of `bufio.Reader.ReadLine` on a reader whose unread input is `buf`:
`none` is `io.EOF`, otherwise the line returned and the input left. The line ends at the
first newline found within the buffer (the newline and a carriage return before it are
dropped); when the buffer fills up without a newline the buffer is returned as it is (the
caller in lpm.go ignores `isPrefix`), a trailing carriage return being left for the next
call; the last line of a file that does not end with a newline is returned unchanged. -/
def ReadLine (buf : List UInt8) : Option (List UInt8 × List UInt8) :=
  match buf with
  | [] => none
  | _ :: _ =>
    let window := buf.take defaultBufSize
    match window.indexOf? 10 with
    | some i =>
      let line := buf.take i
      some (if line.getLast? = some 13 then line.dropLast else line, buf.drop (i + 1))
    | none =>
      if window.length < defaultBufSize then some (buf, [])
      else if window.getLast? = some 13 then
        some (window.dropLast, buf.drop (defaultBufSize - 1))
      else some (window, buf.drop defaultBufSize)

/-- The lines that successive calls of `ReadLine` return until `io.EOF`; every call
consumes at least one byte, so `fuel = buf.length` calls reach the end of the input. -/
def readLinesAux : Nat → List UInt8 → List (List UInt8)
  | 0, _ => []
  | fuel + 1, buf =>
    match ReadLine buf with
    | none => []
    | some (line, rest) => line :: readLinesAux fuel rest

/-- All the lines of a file, as the loop of `loadTree` reads them. -/
def readLines (content : List UInt8) : List (List UInt8) :=
  readLinesAux content.length content

/-! ## proc/lpm.go -/

/-- The key of a prefix in the tree: the leading bits that its mask selects, most
significant bit first (a plain address is the prefix of all its bits). -/
abbrev Bits := List Bool

/-- The metadata of a prefix: the JSON object of its line. -/
abbrev Meta := Data

/-- Modelled from the spec: the prefix tree (`nradix.Tree` with `NewTree`, `AddCIDRb`,
`FindCIDR`) comes from a package outside the repository. The spec describes it as the
mapping from CIDR prefix to metadata on which a longest-prefix-match is performed; it is
modelled as a binary trie over the bits of the prefix. `Node.nil` is the nil pointer. -/
inductive Node where
  | nil : Node
  | mk (left right : Node) (value : Option Meta) : Node

/-- Modelled from the spec: `nradix.NewTree(n)`, a tree that holds no prefix (the
argument only preallocates nodes). -/
def NewTree (_preallocate : Int) : Node := Node.mk Node.nil Node.nil none

/-- Modelled from the spec: insertion of `(prefix, metadata)`; `none` is the error
returned when the prefix is already in the tree (the caller in lpm.go logs the error and
goes on). -/
def Node.insert : Node → Bits → Meta → Option Node
  | Node.nil, [], v => some (Node.mk Node.nil Node.nil (some v))
  | Node.nil, b :: bs, v =>
    (Node.insert Node.nil bs v).map
      (fun c => if b then Node.mk Node.nil c none else Node.mk c Node.nil none)
  | Node.mk l r none, [], v => some (Node.mk l r (some v))
  | Node.mk _ _ (some _), [], _ => none
  | Node.mk l r val, b :: bs, v =>
    if b then (Node.insert r bs v).map (fun c => Node.mk l c val)
    else (Node.insert l bs v).map (fun c => Node.mk c r val)

/-- Modelled from the spec: the longest-prefix-match walk: follow the bits of the key
from the root and keep the last metadata met. -/
def Node.find : Node → Bits → Option Meta → Option Meta
  | Node.nil, _, acc => acc
  | Node.mk _ _ val, [], acc => val.orElse (fun _ => acc)
  | Node.mk l r val, b :: bs, acc =>
    Node.find (if b then r else l) bs (val.orElse (fun _ => acc))

/-- The metadata the tree holds for exactly the prefix `q`, if `q` is in the tree. -/
def Node.valueAt : Node → Bits → Option Meta
  | Node.nil, _ => none
  | Node.mk _ _ val, [] => val
  | Node.mk l r _, b :: bs => Node.valueAt (if b then r else l) bs

/-- Modelled from the spec: `Tree.AddCIDRb(cidr, val)`. `parsecidr` is the tree's parser
of the text of a prefix (`none`: not a CIDR prefix); the result is an error when the text
does not parse or the prefix is already held. -/
def AddCIDRb (parsecidr : GoString → Option Bits) (tree : Node) (cidr : GoString)
    (val : Meta) : Result Node :=
  match parsecidr cidr with
  | none => Result.err "Bad IP address or mask"
  | some key =>
    match tree.insert key val with
    | none => Result.err "Node Busy"
    | some tree' => Result.ok tree'

/-- Modelled from the spec: `Tree.FindCIDR(cidr)`: an error when the text does not parse,
otherwise the metadata of the longest prefix of the key held by the tree (`none` for the
nil interface: no prefix matches). -/
def FindCIDR (parsecidr : GoString → Option Bits) (tree : Node) (cidr : GoString) :
    Result (Option Meta) :=
  match parsecidr cidr with
  | none => Result.err "Bad IP address or mask"
  | some key => Result.ok (tree.find key none)

/-- `LPMOutField`. -/
structure LPMOutField where
  NewKey : GoString
  MetaKey : GoString
  deriving DecidableEq

/-- `LPMProc`, without the channels, the lock and the statistics of `ComponentBase`. -/
structure LPMProc where
  Tree : Node
  FilePath : GoString
  ReloadMinutes : Int
  InFields : List GoString
  OutFields : List LPMOutField

/-- What `json.Decoder.Decode(&json_data)` leaves in `json_data`, a
`map[string]interface{}`: an error (the text is not JSON, or its first value is not an
object or `null`), the nil map (the first value is `null`), or the object. -/
inductive Decoded where
  | error : Decoded
  | nilMap : Decoded
  | object (m : Data) : Decoded

/-- The placeholder of an output-field template. -/
def in_field_placeholder : GoString := ascii "\x7b\x7bin_field\x7d\x7d"

/-- Line 158 of lpm.go: `new_field := strings.Replace(ofield.NewKey, "{{in_field}}", ifield, 1)`. -/
def LPMProc.new_field (ofield : LPMOutField) (ifield : GoString) : GoString :=
  Replace ofield.NewKey in_field_placeholder ifield 1

/-- Lines 207 to 209 of lpm.go: the text of the prefix and the text of the metadata of a
line. -/
def splitLine (line : GoString) : GoString × GoString :=
  let parts := SplitAfterN line (ascii " ") 2
  (Trim (parts.headD []) (ascii " "), Join parts.tail [])

/-- The body of the loop of `loadTree` (lines 200 to 227) for one line, on the tree being
built and the counter: a comment line is skipped, a line whose metadata does not decode is
skipped, the prefix text is stored under `prefix` and the pair is added to the tree.
`decode` is `json.Decoder.Decode` with `UseNumber`. -/
def loadLine (parsecidr : GoString → Option Bits) (decode : GoString → Decoded)
    (st : Node × Nat) (line : GoString) : Result (Node × Nat) :=
  if line.head? = some 35 then Result.ok st
  else
    let parts := splitLine line
    match decode parts.2 with
    | Decoded.error => Result.ok st
    | Decoded.nilMap => Result.panic "assignment to entry in nil map"
    | Decoded.object m =>
      let json_data := Data.set m (ascii "prefix") (Value.str parts.1)
      match AddCIDRb parsecidr st.1 parts.1 json_data with
      | Result.ok tree => Result.ok (tree, st.2 + 1)
      | _ => Result.ok st

/-- The loop of `loadTree` over the lines of the file. -/
def loadLines (parsecidr : GoString → Option Bits) (decode : GoString → Decoded) :
    Node × Nat → List GoString → Result (Node × Nat)
  | st, [] => Result.ok st
  | st, line :: rest =>
    match loadLine parsecidr decode st line with
    | Result.ok st' => loadLines parsecidr decode st' rest
    | Result.err msg => Result.err msg
    | Result.panic msg => Result.panic msg

/-- `LPMProc.loadTree`. `file` is what `os.Open(p.FilePath)` finds: `none` when the file
cannot be opened, otherwise its content. -/
def LPMProc.loadTree (parsecidr : GoString → Option Bits) (decode : GoString → Decoded)
    (p : LPMProc) (file : Option (List UInt8)) : Result LPMProc :=
  match file with
  | none => Result.ok p
  | some content =>
    match loadLines parsecidr decode (NewTree 0, 1) (readLines content) with
    | Result.ok st => Result.ok { p with Tree := st.1 }
    | Result.err msg => Result.err msg
    | Result.panic msg => Result.panic msg

/-- Lines 157 to 165 of lpm.go: the output fields written for the input field `ifield`
once the lookup has returned `meta`. -/
def LPMProc.writeOutFields (outFields : List LPMOutField) (ifield : GoString)
    (meta : Option Meta) (e : Data) : Data :=
  outFields.foldl (fun e ofield =>
    match meta with
    | none => e.set (LPMProc.new_field ofield ifield) (Value.str [])
    | some m => e.set (LPMProc.new_field ofield ifield) (Data.index m ofield.MetaKey)) e

/-- Lines 140 to 165 of lpm.go: the body of the loop over `p.InFields` for one input
field (the log-once flag `cfg_error` only affects logging and is left out). -/
def LPMProc.lookupField (parsecidr : GoString → Option Bits) (p : LPMProc) (e : Data)
    (ifield : GoString) : Data :=
  match e.get ifield with
  | some (Value.str what) =>
    match FindCIDR parsecidr p.Tree what with
    | Result.ok meta => LPMProc.writeOutFields p.OutFields ifield meta e
    | _ => e
  | _ => e

/-- Lines 136 to 169 of lpm.go: what `Run` does to the data of one event between taking
and releasing the lock. -/
def LPMProc.processEvent (parsecidr : GoString → Option Bits) (p : LPMProc) (e : Data) :
    Data :=
  p.InFields.foldl (LPMProc.lookupField parsecidr p) e

/-- The entry that one line of the prefix file defines, read off the file format: a line
that is not a comment, whose metadata text decodes to a JSON object and whose prefix text
parses, defines the prefix with the metadata of the line plus the key `prefix` bound to
the prefix text. -/
def lineEntry (parsecidr : GoString → Option Bits) (decode : GoString → Decoded)
    (line : GoString) : Option (Bits × Meta) :=
  if line.head? = some 35 then none
  else
    match decode (splitLine line).2 with
    | Decoded.object m =>
      (parsecidr (splitLine line).1).map
        (fun key => (key, Data.set m (ascii "prefix") (Value.str (splitLine line).1)))
    | _ => none

/-- The entries that the lines of a prefix file define, in the order of the lines. -/
def fileEntries (parsecidr : GoString → Option Bits) (decode : GoString → Decoded)
    (content : List UInt8) : List (Bits × Meta) :=
  (readLines content).filterMap (lineEntry parsecidr decode)

/-- The metadata of the first entry of a list for the prefix `q`. -/
def firstEntry (entries : List (Bits × Meta)) (q : Bits) : Option Meta :=
  (entries.find? (fun x => decide (x.1 = q))).map Prod.snd

/-- The value of a non-empty sequence of ASCII decimal digits. -/
def parseDigits (s : GoString) : Option Nat :=
  if s = [] then none
  else s.foldl (fun acc c =>
    acc.bind (fun n => if 48 ≤ c ∧ c ≤ 57 then some (n * 10 + (c.toNat - 48)) else none))
    (some 0)

/-! ## core/linecodecs.go: the CSV codec -/

/-- `CSVLineCodec`. -/
structure CSVLineCodec where
  Headers : List GoString
  Separator : UInt8
  Convert : Bool

/-- Model of `strconv.ParseInt(s, 10, 64)`: an optional sign followed by one or more
decimal digits, whose value fits in 64 bits (`none`: the call returns an error). -/
def ParseInt (s : GoString) : Option Int :=
  let neg := decide (s.head? = some 45)
  let digits := if s.head? = some 43 ∨ s.head? = some 45 then s.tail else s
  match parseDigits digits with
  | none => none
  | some n =>
    if neg then (if n ≤ 2 ^ 63 then some (-(n : Int)) else none)
    else (if n < 2 ^ 63 then some (n : Int) else none)

/-- The body of the loop of `CSVLineCodec.FromBytes` (lines 74 to 93) for the field `v`
under the header `h`. `ParseFloat` is `strconv.ParseFloat(v, 64)` (`none`: it returns an
error). -/
def CSVLineCodec.storeField (ParseFloat : GoString → Option Float64) (c : CSVLineCodec)
    (json_data : Data) (h v : GoString) : Data :=
  if !c.Convert then Data.set json_data h (Value.str v)
  else
    match ParseInt v with
    | some tmp => Data.set json_data h (Value.int64 tmp)
    | none =>
      match ParseFloat v with
      | some tmpf => Data.set json_data h (Value.float64 tmpf)
      | none => json_data

/-- The loop of `CSVLineCodec.FromBytes` over a record that has as many fields as there
are headers. -/
def CSVLineCodec.decodeRecord (ParseFloat : GoString → Option Float64) (c : CSVLineCodec)
    (record : List GoString) : Data :=
  (c.Headers.zip record).foldl
    (fun json_data hv => c.storeField ParseFloat json_data hv.1 hv.2) []

/-- `CSVLineCodec.FromBytes`. `csvRead` is `csv.NewReader(bytes.NewReader(data)).Read()`
(the reader is created with its default comma; `c.Separator` is not given to it). -/
def CSVLineCodec.FromBytes (csvRead : List UInt8 → Result (List GoString))
    (ParseFloat : GoString → Option Float64) (c : CSVLineCodec) (data : List UInt8) :
    Result Data :=
  match csvRead data with
  | Result.err msg => Result.err msg
  | Result.panic msg => Result.panic msg
  | Result.ok record =>
    if record.length ≠ c.Headers.length then
      Result.err "CSVLineCodec.FromBytes: Failed to convert CSV to object: Headers and fields mismatch"
    else Result.ok (c.decodeRecord ParseFloat record)

/-! ## proc/md5.go -/

/-- `Md5Proc`, without `ComponentBase`. -/
structure Md5Proc where
  InFields : List GoString
  OutFields : List GoString
  Salt : GoString

/-- Model of `hash.Sum(b)` for a `hash.Hash` into which the bytes `written` have been
written: the digest of `written` is appended to `b`. `md5` is the MD5 digest function. -/
def hashSum (md5 : List UInt8 → List UInt8) (written b : List UInt8) : List UInt8 :=
  b ++ md5 written

/-- Lines 54 to 62 of md5.go: the loop over `p.InFields`, from index `i` on. The hash
created before the loop by `md5.New()` is never written to, so every `Sum` is taken on a
hash that has seen no byte. -/
def Md5Proc.fields (md5 : List UInt8 → List UInt8) (p : Md5Proc) :
    Nat → List GoString → Data → Result Data
  | _, [], e => Result.ok e
  | i, ifield :: rest, e =>
    match Data.get e ifield with
    | some (Value.str b) =>
      match p.OutFields.get? i with
      | none => Result.panic "index out of range"
      | some out =>
        Md5Proc.fields md5 p (i + 1) rest
          (Data.set e out (Value.bytes (hashSum md5 [] (b ++ p.Salt))))
    | _ => Md5Proc.fields md5 p (i + 1) rest e

/-- What `Md5Proc.Run` does to the data of one event. -/
def Md5Proc.processEvent (md5 : List UInt8 → List UInt8) (p : Md5Proc) (e : Data) :
    Result Data :=
  Md5Proc.fields md5 p 0 p.InFields e

/-! ## proc/lpm.go: the constructor -/

/-- `InterfaceToStringArray` of core/linecodecs.go: the assertion `v.(string)` panics on
an element that is not a string. -/
def InterfaceToStringArray : List Value → Result (List GoString)
  | [] => Result.ok []
  | Value.str s :: rest =>
    match InterfaceToStringArray rest with
    | Result.ok ss => Result.ok (s :: ss)
    | other => other
  | _ :: _ => Result.panic "interface conversion: interface {} is not string"

/-- Lines 84 to 89 of lpm.go: the loop that builds `out_fields`; each of the three type
assertions panics when the value has another type or is missing. -/
def outFieldsOf : List Value → Result (List LPMOutField)
  | [] => Result.ok []
  | Value.obj v2 :: rest =>
    match Data.index v2 (ascii "newkey"), Data.index v2 (ascii "metakey") with
    | Value.str newkey, Value.str metakey =>
      match outFieldsOf rest with
      | Result.ok fs => Result.ok (⟨newkey, metakey⟩ :: fs)
      | other => other
    | _, _ => Result.panic "interface conversion: interface {} is not string"
  | _ :: _ => Result.panic "interface conversion: interface {} is not map[string]interface {}"

/-- `NewLPMProc` on the configuration `cfg` (the channels and `NewComponentBase` are left
out). `filepath` is checked and its absence panics with a message; `in_fields` and
`out_fields` default to empty lists; `reload_minutes` is read with the unchecked assertion
`cfg["reload_minutes"].(float64)`, which panics unless the value is a `float64`. -/
def NewLPMProc (cfg : Data) : Result LPMProc :=
  match Data.index cfg (ascii "filepath") with
  | Value.str fpath =>
    let in_fields :=
      match Data.index cfg (ascii "in_fields") with
      | Value.arr tmp => InterfaceToStringArray tmp
      | _ => Result.ok []
    match in_fields with
    | Result.ok in_fields =>
      let out_fields :=
        match Data.index cfg (ascii "out_fields") with
        | Value.arr tmpof => outFieldsOf tmpof
        | _ => Result.ok []
      match out_fields with
      | Result.ok out_fields =>
        match Data.index cfg (ascii "reload_minutes") with
        | Value.float64 f =>
          Result.ok { Tree := NewTree 100, FilePath := fpath, ReloadMinutes := f.toInt,
                      InFields := in_fields, OutFields := out_fields }
        | _ => Result.panic "interface conversion: interface {} is not float64"
      | Result.err msg => Result.err msg
      | Result.panic msg => Result.panic msg
    | Result.err msg => Result.err msg
    | Result.panic msg => Result.panic msg
  | _ => Result.panic "LPMProc: no valid filepath supplied. This is required..."

/-! ## proc/lpm.go: a reload running concurrently with the processing of an event -/

/-- The two goroutines that share `p.Tree`: the one in `Run`, processing an event, and
the one executing `loadTree` (the background reload or a `reload` signal). -/
inductive Tid where
  | run : Tid
  | reload : Tid
  deriving DecidableEq, Repr

/-- Where the goroutine of `Run` stands in lines 136 to 169 for the event it holds. -/
inductive RunPC where
  /-- before `p.TreeLock.Lock()` -/
  | start (e : Data) : RunPC
  /-- holding the lock, in the loop over `p.InFields`, with the input fields left -/
  | inLoop (rest : List GoString) (e : Data) : RunPC
  /-- after `p.TreeLock.Unlock()` -/
  | finished (e : Data) : RunPC

/-- Where the goroutine of `loadTree` stands. -/
inductive LoadPC where
  /-- before `os.Open` -/
  | start : LoadPC
  /-- after `p.TreeLock.Lock()`, before `p.Tree = nradix.NewTree(0)` -/
  | locked (content : List UInt8) : LoadPC
  /-- holding the lock, in the loop over the lines, with the lines left and the counter -/
  | building (rest : List GoString) (count : Nat) : LoadPC
  /-- after `p.TreeLock.Unlock()`, or after the return on a file that cannot be opened -/
  | finished : LoadPC
  /-- a panic in `loadTree`: the process stops -/
  | crashed : LoadPC

/-- The shared state and the two program points. `observed` records, for the statement
of the property only, the tree that each iteration of the loop of `Run` read. -/
structure Sys where
  tree : Node
  lock : Option Tid
  runPC : RunPC
  loadPC : LoadPC
  observed : List Node

/-- The state in which the stage `p` has received the event `e` and a reload is about to
start: nobody holds the lock. -/
def Sys.init (p : LPMProc) (e : Data) : Sys :=
  { tree := p.Tree, lock := none, runPC := RunPC.start e, loadPC := LoadPC.start,
    observed := [] }

/-- One atomic step of the goroutine of `Run`; `none` when it cannot move (it waits for
the lock or has finished). -/
def stepRun (parsecidr : GoString → Option Bits) (p : LPMProc) (s : Sys) : Option Sys :=
  match s.runPC with
  | RunPC.start e =>
    match s.lock with
    | none => some { s with lock := some Tid.run, runPC := RunPC.inLoop p.InFields e }
    | some _ => none
  | RunPC.inLoop (ifield :: rest) e =>
    some { s with
      runPC := RunPC.inLoop rest (LPMProc.lookupField parsecidr { p with Tree := s.tree } e ifield)
      observed := s.observed ++ [s.tree] }
  | RunPC.inLoop [] e => some { s with lock := none, runPC := RunPC.finished e }
  | RunPC.finished _ => none

/-- One atomic step of the goroutine of `loadTree`; `none` when it cannot move. `file` is
what `os.Open` finds. -/
def stepLoad (parsecidr : GoString → Option Bits) (decode : GoString → Decoded)
    (file : Option (List UInt8)) (s : Sys) : Option Sys :=
  match s.loadPC with
  | LoadPC.start =>
    match file with
    | none => some { s with loadPC := LoadPC.finished }
    | some content =>
      match s.lock with
      | none => some { s with lock := some Tid.reload, loadPC := LoadPC.locked content }
      | some _ => none
  | LoadPC.locked content =>
    some { s with tree := NewTree 0, loadPC := LoadPC.building (readLines content) 1 }
  | LoadPC.building (line :: rest) count =>
    match loadLine parsecidr decode (s.tree, count) line with
    | Result.ok st => some { s with tree := st.1, loadPC := LoadPC.building rest st.2 }
    | _ => some { s with loadPC := LoadPC.crashed }
  | LoadPC.building [] _ => some { s with lock := none, loadPC := LoadPC.finished }
  | LoadPC.finished => none
  | LoadPC.crashed => none

/-- One step of the system: the scheduler picks a goroutine; a goroutine that cannot move
leaves the state unchanged, and after a panic nothing moves. -/
def step (parsecidr : GoString → Option Bits) (decode : GoString → Decoded) (p : LPMProc)
    (file : Option (List UInt8)) (s : Sys) (t : Tid) : Sys :=
  match s.loadPC with
  | LoadPC.crashed => s
  | _ =>
    match t with
    | Tid.run => (stepRun parsecidr p s).getD s
    | Tid.reload => (stepLoad parsecidr decode file s).getD s

/-- The state reached under a schedule, an arbitrary sequence of choices of the
scheduler. -/
def runSchedule (parsecidr : GoString → Option Bits) (decode : GoString → Decoded)
    (p : LPMProc) (file : Option (List UInt8)) (schedule : List Tid) (s : Sys) : Sys :=
  schedule.foldl (step parsecidr decode p file) s

/-- The trees that a lookup may see: the tree of the stage before the reload, or the tree
that `loadTree` installs for the file. -/
def IsSnapshot (parsecidr : GoString → Option Bits) (decode : GoString → Decoded)
    (p : LPMProc) (file : Option (List UInt8)) (T : Node) : Prop :=
  T = p.Tree ∨ ∃ p', p.loadTree parsecidr decode file = Result.ok p' ∧ T = p'.Tree

/-- The invariant of the system started in `Sys.init p e`: the lock is held by whoever is
inside its critical section, the tree outside the critical section of `loadTree` is the
old or the loaded one, and the iterations of `Run` done so far all read the current tree. -/
def Sys.Inv (parsecidr : GoString → Option Bits) (decode : GoString → Decoded)
    (p : LPMProc) (file : Option (List UInt8)) (e : Data) (s : Sys) : Prop :=
  (match s.loadPC with
    | LoadPC.start => s.tree = p.Tree ∧ s.lock ≠ some Tid.reload
    | LoadPC.locked content => file = some content ∧ s.lock = some Tid.reload
    | LoadPC.building rest count =>
      s.lock = some Tid.reload ∧ ∃ content, file = some content ∧
        loadLines parsecidr decode (s.tree, count) rest
          = loadLines parsecidr decode (NewTree 0, 1) (readLines content)
    | LoadPC.finished =>
      s.lock ≠ some Tid.reload ∧
        ∃ p', p.loadTree parsecidr decode file = Result.ok p' ∧ s.tree = p'.Tree
    | LoadPC.crashed => s.lock = some Tid.reload) ∧
  (match s.runPC with
    | RunPC.start e0 => e0 = e ∧ s.observed = [] ∧ s.lock ≠ some Tid.run
    | RunPC.inLoop rest e1 =>
      s.lock = some Tid.run ∧ (∀ t ∈ s.observed, t = s.tree) ∧
        rest.foldl (LPMProc.lookupField parsecidr { p with Tree := s.tree }) e1
          = LPMProc.processEvent parsecidr { p with Tree := s.tree } e
    | RunPC.finished e1 =>
      s.lock ≠ some Tid.run ∧ ∃ T, IsSnapshot parsecidr decode p file T ∧
        (∀ t ∈ s.observed, t = T) ∧
        e1 = LPMProc.processEvent parsecidr { p with Tree := T } e)

/-! ## The loops of `Run` and the stop flag -/

/-- The stages whose `Run` is defined in the repository. `FileCSVOutput` embeds
`FileJSONOutput`, and `UDPCSVOutput`, `UDPRawOutput` and `UDPStrOutput` embed
`UDPJSONOutput`: they have the `Run` of the stage they embed. -/
inductive StageKind where
  | Md5Proc | LPMProc | FileJSONOutput | UDPJSONOutput
  deriving DecidableEq, Repr

/-- Where the goroutine of a stage stands in `Run`. -/
inductive LoopPC where
  /-- at the first statement of `Run` -/
  | start : LoopPC
  /-- at the head of the `for` loop, about to evaluate its condition -/
  | loopHead : LoopPC
  /-- in the body, at the receive from the input channel -/
  | receive : LoopPC
  /-- `Run` has returned -/
  | returned : LoopPC
  /-- `Run` has ended by a panic -/
  | panicked : LoopPC
  deriving DecidableEq, Repr

/-- A stage while its `Run` executes: the stop flag and the input channel of
`ComponentBase`, the program point, the events that went through the whole body of the
loop, and, for the statement of the property only, the number of events taken from the
input channel while the stop flag was set. -/
structure Stage where
  kind : StageKind
  MustStop : Bool
  pc : LoopPC
  InQ : List Data
  handled : List Data
  takenAfterStop : Nat

/-- A stage whose `Run` is about to start; the value of the stop flag left by the
constructor is arbitrary. -/
def Stage.init (kind : StageKind) (mustStop : Bool) : Stage :=
  { kind := kind, MustStop := mustStop, pc := LoopPC.start, InQ := [], handled := [],
    takenAfterStop := 0 }

/-- Whether the body of the loop runs to its end for the event it received. `ShouldRun`
of `ComponentBase` is in core/component.go, which is not among the sources: it is taken as
a receive of the next event from the input channel together with the parameter `admits`
(`admits e`: `ShouldRun` returns no error for `e`). `encodes e` is `Encoder.ToBytes`
returning no error. On an error the body executes `continue`. -/
def StageKind.completes (admits encodes : Data → Bool) : StageKind → Data → Bool
  | StageKind.Md5Proc, _ => true
  | StageKind.LPMProc, e => admits e
  | StageKind.FileJSONOutput, e => encodes e
  | StageKind.UDPJSONOutput, e => admits e && encodes e

/-- One step of the goroutine of `Run`. `ready` tells whether the resource opened before
the loop is available (the UDP connection of `net.Dial`, the file of `getNewFile`).

* `start`: md5.go line 49, lpm.go line 125 and file.go line 86 reset the stop flag
  (`p.MustStop = false`); udp.go does not, and returns when `net.Dial` fails; `getNewFile`
  panics when the file cannot be created.
* `loopHead`: md5.go line 51, lpm.go line 128 and file.go line 93 are `for !p.MustStop`;
  udp.go line 67 is `for` without a condition.
* `receive`: the body blocks until an event is in the input channel, takes it and goes
  back to the head of the loop, through `continue` or through the end of the body. -/
def stageStep (admits encodes : Data → Bool) (ready : Bool) (s : Stage) : Stage :=
  match s.pc with
  | LoopPC.start =>
    match s.kind with
    | StageKind.UDPJSONOutput =>
      if ready then { s with pc := LoopPC.loopHead } else { s with pc := LoopPC.returned }
    | StageKind.FileJSONOutput =>
      if ready then { s with MustStop := false, pc := LoopPC.loopHead }
      else { s with MustStop := false, pc := LoopPC.panicked }
    | _ => { s with MustStop := false, pc := LoopPC.loopHead }
  | LoopPC.loopHead =>
    match s.kind with
    | StageKind.UDPJSONOutput => { s with pc := LoopPC.receive }
    | _ => if s.MustStop then { s with pc := LoopPC.returned } else { s with pc := LoopPC.receive }
  | LoopPC.receive =>
    match s.InQ with
    | [] => s
    | e :: rest =>
      { s with
        pc := LoopPC.loopHead
        InQ := rest
        handled := if s.kind.completes admits encodes e then s.handled ++ [e] else s.handled
        takenAfterStop := if s.MustStop then s.takenAfterStop + 1 else s.takenAfterStop }
  | LoopPC.returned => s
  | LoopPC.panicked => s

/-- What can happen next to a running stage: its goroutine takes a step, another
goroutine sets the stop flag, or the stage upstream sends an event. -/
inductive Act where
  | stage : Act
  | stop : Act
  | send (e : Data) : Act

/-- The effect of one action. -/
def actStep (admits encodes : Data → Bool) (ready : Bool) (s : Stage) : Act → Stage
  | Act.stage => stageStep admits encodes ready s
  | Act.stop => { s with MustStop := true }
  | Act.send e => { s with InQ := s.InQ ++ [e] }

/-- The stage after a sequence of actions. -/
def runActs (admits encodes : Data → Bool) (ready : Bool) (acts : List Act) (s : Stage) :
    Stage :=
  acts.foldl (actStep admits encodes ready) s

/-- The invariant of a loop that reads the stop flag: before the loop, at the receive, and
as long as the flag is not set, no event has been taken under a set flag; at most one is
ever taken. -/
def Stage.StopInv (s : Stage) : Prop :=
  (s.pc = LoopPC.start ∨ s.pc = LoopPC.receive ∨ s.MustStop = false → s.takenAfterStop = 0) ∧
  s.takenAfterStop ≤ 1

/-! ## Concrete models of the parsers, for evaluation on examples -/

/-- The pieces of `s` between the occurrences of the byte `sep`. -/
def splitByte (sep : UInt8) : GoString → List GoString
  | [] => [[]]
  | c :: cs =>
    match splitByte sep cs with
    | [] => [[c]]
    | piece :: pieces => if c = sep then [] :: piece :: pieces else (c :: piece) :: pieces

/-- The 32-bit value of a dotted IPv4 address `a.b.c.d`. -/
def parseIPv4 (s : GoString) : Option Nat :=
  match (splitByte 46 s).map parseDigits with
  | [some a, some b, some c, some d] =>
    if a ≤ 255 ∧ b ≤ 255 ∧ c ≤ 255 ∧ d ≤ 255 then some (((a * 256 + b) * 256 + c) * 256 + d)
    else none
  | _ => none

/-- The `len` leading bits of a 32-bit address, most significant first. -/
def leadingBits (ip len : Nat) : Bits :=
  (List.range len).map (fun i => decide ((ip / 2 ^ (31 - i)) % 2 = 1))

/-- Modelled from the spec: the text of an IPv4 CIDR prefix, "address/mask-length" (a
plain address stands for the prefix of all its 32 bits). It stands for the parser of the
external prefix tree on dotted IPv4 text; IPv6 text is not covered and does not parse. -/
def parsecidr4 (s : GoString) : Option Bits :=
  match splitByte 47 s with
  | [addr] => (parseIPv4 addr).map (fun ip => leadingBits ip 32)
  | [addr, len] =>
    match parseIPv4 addr, parseDigits len with
    | some ip, some n => if n ≤ 32 then some (leadingBits ip n) else none
    | _, _ => none
  | _ => none

/-- JSON white space. -/
def isSpace (c : UInt8) : Bool := c = 32 || c = 9 || c = 10 || c = 13

/-- The rest of a JSON string literal after its opening quote: the bytes of the string
and the input left after the closing quote. The two-character escapes are decoded; a
`\u` escape is not modelled and is rejected. -/
def parseStringBody : GoString → Option (GoString × GoString)
  | [] => none
  | c :: rest =>
    if c = 34 then some ([], rest)
    else if c = 92 then
      match rest with
      | [] => none
      | e :: rest' =>
        let decoded : Option UInt8 :=
          if e = 34 then some 34 else if e = 92 then some 92 else if e = 47 then some 47
          else if e = 98 then some 8 else if e = 102 then some 12 else if e = 110 then some 10
          else if e = 114 then some 13 else if e = 116 then some 9 else none
        match decoded, parseStringBody rest' with
        | some d, some (s, r) => some (d :: s, r)
        | _, _ => none
    else if c < 32 then none
    else
      match parseStringBody rest with
      | some (s, r) => some (c :: s, r)
      | none => none

/-- Whether the text is a JSON number: `-? (0 | [1-9][0-9]*) (. [0-9]+)? ([eE] [+-]? [0-9]+)?`. -/
def isJSONNumber (s : GoString) : Bool :=
  let isDigit := fun (c : UInt8) => decide (48 ≤ c ∧ c ≤ 57)
  let s1 := if s.head? = some 45 then s.tail else s
  let intPart := s1.takeWhile isDigit
  let s2 := s1.dropWhile isDigit
  let intOK := intPart ≠ [] ∧ (intPart.head? = some 48 → intPart.length = 1)
  let fracDigits := if s2.head? = some 46 then s2.tail.takeWhile isDigit else []
  let fracOK := s2.head? = some 46 → fracDigits ≠ []
  let s3 := if s2.head? = some 46 then s2.tail.dropWhile isDigit else s2
  let expOK :=
    match s3 with
    | [] => true
    | e :: s4 =>
      let s5 := if s4.head? = some 43 ∨ s4.head? = some 45 then s4.tail else s4
      (e = 101 || e = 69) && decide (s5 ≠ []) && s5.all isDigit
  decide intOK && decide fracOK && expOK

mutual
/-- One JSON value at the head of the input (after white space), with `UseNumber`: the
value and the input left. `fuel` bounds the number of nested calls. -/
def parseValue : Nat → GoString → Option (Value × GoString)
  | 0, _ => none
  | fuel + 1, input =>
    match input.dropWhile isSpace with
    | [] => none
    | c :: rest =>
      if c = 123 then
        match rest.dropWhile isSpace with
        | [] => none
        | c' :: rest' =>
          if c' = 125 then some (Value.obj [], rest')
          else
            match parseMembers fuel (c' :: rest') [] with
            | some (m, r) => some (Value.obj m, r)
            | none => none
      else if c = 91 then
        match rest.dropWhile isSpace with
        | [] => none
        | c' :: rest' =>
          if c' = 93 then some (Value.arr [], rest')
          else
            match parseElements fuel (c' :: rest') [] with
            | some (xs, r) => some (Value.arr xs, r)
            | none => none
      else if c = 34 then
        match parseStringBody rest with
        | some (s, r) => some (Value.str s, r)
        | none => none
      else if (ascii "true").isPrefixOf (c :: rest) then some (Value.bool true, rest.drop 3)
      else if (ascii "false").isPrefixOf (c :: rest) then some (Value.bool false, rest.drop 4)
      else if (ascii "null").isPrefixOf (c :: rest) then some (Value.null, rest.drop 3)
      else
        let isNumChar := fun (b : UInt8) =>
          decide (48 ≤ b ∧ b ≤ 57) || b = 45 || b = 43 || b = 46 || b = 101 || b = 69
        let text := (c :: rest).takeWhile isNumChar
        if isJSONNumber text then some (Value.number text, (c :: rest).dropWhile isNumChar)
        else none
/-- The members of a JSON object after its opening brace, up to the closing brace; a
repeated key keeps its last value. -/
def parseMembers : Nat → GoString → Data → Option (Data × GoString)
  | 0, _, _ => none
  | fuel + 1, input, acc =>
    match input.dropWhile isSpace with
    | [] => none
    | q :: rest =>
      if q ≠ 34 then none
      else
        match parseStringBody rest with
        | none => none
        | some (key, r1) =>
          match r1.dropWhile isSpace with
          | [] => none
          | colon :: r2 =>
            if colon ≠ 58 then none
            else
              match parseValue fuel r2 with
              | none => none
              | some (v, r3) =>
                match r3.dropWhile isSpace with
                | [] => none
                | d :: r4 =>
                  if d = 125 then some (Data.set acc key v, r4)
                  else if d = 44 then parseMembers fuel r4 (Data.set acc key v)
                  else none
/-- The elements of a JSON array after its opening bracket, up to the closing bracket. -/
def parseElements : Nat → GoString → List Value → Option (List Value × GoString)
  | 0, _, _ => none
  | fuel + 1, input, acc =>
    match parseValue fuel input with
    | none => none
    | some (v, r) =>
      match r.dropWhile isSpace with
      | [] => none
      | d :: r' =>
        if d = 93 then some (acc ++ [v], r')
        else if d = 44 then parseElements fuel r' (acc ++ [v])
        else none
end

/-- Model of `json.Decoder.Decode(&json_data)` with `UseNumber`, for `json_data` a
`map[string]interface{}`: the first JSON value of the text is read (what follows it is
left unread); an object fills the map, `null` sets the map to nil, any other value and
any text that is not JSON is an error. -/
def jsonDecode (text : GoString) : Decoded :=
  match parseValue (2 * text.length + 2) text with
  | some (Value.obj m, _) => Decoded.object m
  | some (Value.null, _) => Decoded.nilMap
  | _ => Decoded.error

/-! ## Example inputs -/

/-- The configuration that `getLPM` of lpm_test.go gives to the stage (the tree is the
one `NewLPMProc` creates). -/
def testLPM : LPMProc :=
  { Tree := NewTree 100
    FilePath := ascii "../tests/prefix-asn1"
    ReloadMinutes := 1440
    InFields := [ascii "src", ascii "dst"]
    OutFields := [⟨ascii "_\x7b\x7bin_field\x7d\x7d_prefix", ascii "prefix"⟩,
      ⟨ascii "_\x7b\x7bin_field\x7d\x7d_asn", ascii "asn"⟩,
      ⟨ascii "_\x7b\x7bin_field\x7d\x7d_comment", ascii "comment"⟩] }

/-- A prefix file in the format of the fixture of the tests, with two nested prefixes: a
comment line, the wider prefix, an empty line, the narrower prefix. -/
def nestedPrefixFile : List UInt8 :=
  ascii ("# prefix metadata\n"
    ++ "176.52.166.0/24 \x7b\"asn\": 1, \"comment\": \"v4 outer-range\"\x7d\n"
    ++ "\n"
    ++ "176.52.166.192/26 \x7b\"asn\": 2, \"comment\": \"v4 inner-range\"\x7d\n")

/-- The stage of the tests after `Signal("reload")` on the file above. -/
def testLPMLoaded : LPMProc :=
  match testLPM.loadTree parsecidr4 jsonDecode (some nestedPrefixFile) with
  | Result.ok p => p
  | _ => testLPM

/-- A stage whose single output field has a template without placeholder. -/
def sharedKeyLPM : LPMProc :=
  match ({ Tree := NewTree 100
           FilePath := ascii "prefixes"
           ReloadMinutes := 0
           InFields := [ascii "src", ascii "dst"]
           OutFields := [⟨ascii "asn", ascii "asn"⟩] } : LPMProc).loadTree parsecidr4 jsonDecode
      (some (ascii "10.0.0.0/8 \x7b\"asn\": 64512\x7d\n")) with
  | Result.ok p => p
  | _ => testLPM

/-! # Theorems -/

/-! ## Field templating -/

theorem Index_self_append (sep rest : GoString) : Index (sep ++ rest) sep = some 0 := by
  cases sep with
  | nil => cases rest <;> simp [Index]
  | cons c cs =>
    have h : (c :: cs).isPrefixOf (c :: (cs ++ rest)) = true := by
      rw [List.isPrefixOf_iff_prefix]
      exact ⟨rest, rfl⟩
    simp [Index, h]

/-- The placeholder does not overlap itself: it cannot start inside a text that holds no
placeholder and run over into a placeholder that follows the text. -/
theorem placeholder_no_overlap (pre post : GoString) (hne : pre ≠ [])
    (hpre : in_field_placeholder.isPrefixOf pre = false) :
    in_field_placeholder.isPrefixOf (pre ++ in_field_placeholder ++ post) = false := by
  by_contra hcon
  have hcon' : in_field_placeholder.isPrefixOf (pre ++ in_field_placeholder ++ post) = true := by
    simpa using hcon
  rw [List.isPrefixOf_iff_prefix] at hcon'
  have hpp : pre <+: pre ++ in_field_placeholder ++ post := by
    rw [List.append_assoc]; exact List.prefix_append _ _
  rcases List.prefix_or_prefix_of_prefix hcon' hpp with h | h
  · rw [← List.isPrefixOf_iff_prefix] at h
    rw [h] at hpre
    exact Bool.noConfusion hpre
  · have hlen : pre.length ≤ 12 := h.length_le
    have hpos : 0 < pre.length := List.length_pos.mpr hne
    have htake : pre = in_field_placeholder.take pre.length := List.prefix_iff_eq_take.mp h
    rw [← List.isPrefixOf_iff_prefix] at hcon'
    generalize pre.length = d at hlen hpos htake
    subst htake
    interval_cases d <;> first
      | (exact Bool.noConfusion (hcon'.symm.trans rfl))
      | (exact Bool.noConfusion (hpre.symm.trans rfl))

theorem Index_before_placeholder (pre post : GoString)
    (h : Index pre in_field_placeholder = none) :
    Index (pre ++ in_field_placeholder ++ post) in_field_placeholder = some pre.length := by
  induction pre with
  | nil => simpa using Index_self_append in_field_placeholder post
  | cons c cs ih =>
    have hp : in_field_placeholder.isPrefixOf (c :: cs) = false := by
      by_contra hc
      simp [Index, hc] at h
    have hcs : Index cs in_field_placeholder = none := by
      simpa [Index, hp] using h
    have hno := placeholder_no_overlap (c :: cs) post (by simp) hp
    have hstep : Index (c :: cs ++ in_field_placeholder ++ post) in_field_placeholder
        = (Index (cs ++ in_field_placeholder ++ post) in_field_placeholder).map (· + 1) := by
      have hno' : in_field_placeholder.isPrefixOf (c :: (cs ++ in_field_placeholder ++ post)) = false := by
        simpa using hno
      show Index (c :: (cs ++ in_field_placeholder ++ post)) in_field_placeholder = _
      simp only [Index, hno', Bool.false_eq_true, if_false]
    rw [hstep, ih hcs]
    simp

/-- C3. For every output-field template of the form pre ++ "{{in_field}}" ++ post whose
part pre holds no placeholder, and every input field name f, the destination key that the
LPM stage computes (line 158 of lpm.go) is exactly pre ++ f ++ post. -/
theorem new_field_replaces_placeholder (pre post f metaKey : GoString)
    (h : Index pre in_field_placeholder = none) :
    LPMProc.new_field ⟨pre ++ in_field_placeholder ++ post, metaKey⟩ f = pre ++ f ++ post := by
  have hidx := Index_before_placeholder pre post h
  have hlen : in_field_placeholder.length = 12 := rfl
  simp only [LPMProc.new_field, Replace, hidx]
  have h1 : List.take pre.length (pre ++ in_field_placeholder ++ post) = pre := by
    rw [List.append_assoc, List.take_left]
  have h2 : List.drop (pre.length + in_field_placeholder.length)
      (pre ++ in_field_placeholder ++ post) = post := by
    have : pre.length + in_field_placeholder.length = (pre ++ in_field_placeholder).length := by
      simp
    rw [this, List.drop_left]
  rw [h1, h2]

/-- The instances of C3 named in the specification and in the tests: the template
"_{{in_field}}_asn" with the field "dst" gives "_dst_asn", and "_{{in_field}}_prefix" with
"src" gives "_src_prefix". -/
theorem new_field_replaces_placeholder_witness :
    Index (ascii "_") in_field_placeholder = none ∧
    LPMProc.new_field ⟨ascii "_\x7b\x7bin_field\x7d\x7d_asn", ascii "asn"⟩ (ascii "dst")
      = ascii "_dst_asn" ∧
    LPMProc.new_field ⟨ascii "_\x7b\x7bin_field\x7d\x7d_prefix", ascii "prefix"⟩ (ascii "src")
      = ascii "_src_prefix" :=
  ⟨by decide,
   new_field_replaces_placeholder (ascii "_") (ascii "_asn") (ascii "dst") (ascii "asn")
     (by decide),
   new_field_replaces_placeholder (ascii "_") (ascii "_prefix") (ascii "src") (ascii "prefix")
     (by decide)⟩

/-! ## The prefix tree -/

theorem Node.valueAt_nil (q : Bits) : Node.nil.valueAt q = none := by
  cases q <;> rfl

theorem Node.valueAt_NewTree (n : Int) (q : Bits) : (NewTree n).valueAt q = none := by
  cases q with
  | nil => rfl
  | cons b bs => cases b <;> simp [NewTree, Node.valueAt, Node.valueAt_nil]

/-- A successful insertion binds the inserted prefix and no other. -/
theorem Node.valueAt_insert (t : Node) (p : Bits) (v : Meta) (t' : Node)
    (h : t.insert p v = some t') (q : Bits) :
    t'.valueAt q = if q = p then some v else t.valueAt q := by
  induction p generalizing t t' q with
  | nil =>
    cases t with
    | nil =>
      simp only [Node.insert, Option.some.injEq] at h
      subst h
      cases q with
      | nil => simp [Node.valueAt]
      | cons b bs => cases b <;> simp [Node.valueAt, Node.valueAt_nil]
    | mk l r val =>
      cases val with
      | none =>
        simp only [Node.insert, Option.some.injEq] at h
        subst h
        cases q with
        | nil => simp [Node.valueAt]
        | cons b bs => simp [Node.valueAt]
      | some m => simp [Node.insert] at h
  | cons b bs ih =>
    cases t with
    | nil =>
      simp only [Node.insert, Option.map_eq_some'] at h
      obtain ⟨c, hc, rfl⟩ := h
      have hc' := ih Node.nil c hc
      cases q with
      | nil => cases b <;> simp [Node.valueAt]
      | cons b' bs' =>
        cases b <;> cases b' <;> simp [Node.valueAt, hc', Node.valueAt_nil]
    | mk l r val =>
      cases b with
      | true =>
        simp only [Node.insert, if_true, Option.map_eq_some'] at h
        obtain ⟨c, hc, rfl⟩ := h
        have hc' := ih r c hc
        cases q with
        | nil => simp [Node.valueAt]
        | cons b' bs' => cases b' <;> simp [Node.valueAt, hc']
      | false =>
        simp only [Node.insert, Bool.false_eq_true, if_false, Option.map_eq_some'] at h
        obtain ⟨c, hc, rfl⟩ := h
        have hc' := ih l c hc
        cases q with
        | nil => simp [Node.valueAt]
        | cons b' bs' => cases b' <;> simp [Node.valueAt, hc']

/-- An insertion is refused exactly when the prefix is already bound. -/
theorem Node.insert_eq_none_iff (t : Node) (p : Bits) (v : Meta) :
    t.insert p v = none ↔ t.valueAt p ≠ none := by
  induction p generalizing t with
  | nil =>
    cases t with
    | nil => simp [Node.insert, Node.valueAt]
    | mk l r val => cases val <;> simp [Node.insert, Node.valueAt]
  | cons b bs ih =>
    cases t with
    | nil =>
      have := ih Node.nil
      simp only [Node.valueAt_nil, ne_eq, not_true_eq_false, iff_false] at this
      simp [Node.insert, Node.valueAt, this]
    | mk l r val =>
      cases b with
      | true => simp [Node.insert, Node.valueAt, ih r]
      | false => simp [Node.insert, Node.valueAt, ih l]

/-- The walk of `Node.find` returns the metadata bound to the longest prefix of the key
that is bound in the tree, and the accumulator when no prefix of the key is bound. -/
theorem Node.find_spec (t : Node) (a : Bits) (acc : Option Meta) :
    (∃ q m, q <+: a ∧ t.valueAt q = some m ∧
        (∀ q', q' <+: a → t.valueAt q' ≠ none → q'.length ≤ q.length) ∧
        t.find a acc = some m) ∨
    ((∀ q, q <+: a → t.valueAt q = none) ∧ t.find a acc = acc) := by
  induction a generalizing t acc with
  | nil =>
    cases t with
    | nil => right; exact ⟨fun q _ => Node.valueAt_nil q, rfl⟩
    | mk l r val =>
      cases val with
      | none =>
        right
        refine ⟨fun q hq => ?_, rfl⟩
        rw [List.prefix_nil] at hq
        subst hq; rfl
      | some m =>
        left
        refine ⟨[], m, List.prefix_refl _, rfl, fun q' hq' _ => ?_, rfl⟩
        rw [List.prefix_nil] at hq'
        subst hq'; exact Nat.le_refl _
  | cons b bs ih =>
    cases t with
    | nil => right; exact ⟨fun q _ => Node.valueAt_nil q, rfl⟩
    | mk l r val =>
      have hfind : (Node.mk l r val).find (b :: bs) acc
          = (if b then r else l).find bs (val.orElse (fun _ => acc)) := rfl
      have hval : ∀ q, (Node.mk l r val).valueAt (b :: q) = (if b then r else l).valueAt q :=
        fun q => rfl
      rcases ih (if b then r else l) (val.orElse (fun _ => acc)) with
        ⟨q, m, hq, hv, hmax, hf⟩ | ⟨hnone, hf⟩
      · left
        refine ⟨b :: q, m, ?_, ?_, ?_, ?_⟩
        · exact List.cons_prefix_cons.mpr ⟨rfl, hq⟩
        · rw [hval]; exact hv
        · intro q' hq' hne
          cases q' with
          | nil => simp
          | cons b' q'' =>
            obtain ⟨hb, hq''⟩ := List.cons_prefix_cons.mp hq'
            subst hb
            rw [hval] at hne
            have := hmax q'' hq'' hne
            simp only [List.length_cons]
            omega
        · rw [hfind]; exact hf
      · cases val with
        | none =>
          right
          refine ⟨?_, ?_⟩
          · intro q hq
            cases q with
            | nil => rfl
            | cons b' q'' =>
              obtain ⟨hb, hq''⟩ := List.cons_prefix_cons.mp hq
              subst hb
              rw [hval]; exact hnone q'' hq''
          · rw [hfind, hf]; rfl
        | some m =>
          left
          refine ⟨[], m, List.nil_prefix, rfl, ?_, ?_⟩
          · intro q' hq' hne
            cases q' with
            | nil => simp
            | cons b' q'' =>
              obtain ⟨hb, hq''⟩ := List.cons_prefix_cons.mp hq'
              subst hb
              rw [hval] at hne
              exact absurd (hnone q'' hq'') hne
          · rw [hfind, hf]; rfl

/-! ## Reading the lines of a file -/

theorem ReadLine_length (buf line rest : List UInt8)
    (h : ReadLine buf = some (line, rest)) : rest.length < buf.length := by
  cases buf with
  | nil => simp [ReadLine] at h
  | cons c cs =>
    simp only [ReadLine] at h
    split at h
    · simp only [Option.some.injEq, Prod.mk.injEq] at h
      obtain ⟨_, rfl⟩ := h
      simp only [List.length_drop, List.length_cons]
      omega
    · rename_i hidx
      split at h
      · simp only [Option.some.injEq, Prod.mk.injEq] at h
        obtain ⟨_, rfl⟩ := h
        simp
      · rename_i hfull
        have hlen : defaultBufSize ≤ (c :: cs).length := by
          simp only [List.length_take, defaultBufSize] at hfull ⊢
          omega
        split at h
        · simp only [Option.some.injEq, Prod.mk.injEq] at h
          obtain ⟨_, rfl⟩ := h
          simp only [List.length_drop, defaultBufSize] at hlen ⊢
          omega
        · simp only [Option.some.injEq, Prod.mk.injEq] at h
          obtain ⟨_, rfl⟩ := h
          simp only [List.length_drop, defaultBufSize] at hlen ⊢
          omega

/-- The fuel of `readLines` is enough: any larger fuel gives the same lines, so the loop
of `loadTree` is modelled up to the end of the file. -/
theorem readLinesAux_fuel (fuel₁ fuel₂ : Nat) (buf : List UInt8)
    (h₁ : buf.length ≤ fuel₁) (h₂ : buf.length ≤ fuel₂) :
    readLinesAux fuel₁ buf = readLinesAux fuel₂ buf := by
  induction fuel₁ generalizing fuel₂ buf with
  | zero =>
    have hb : buf = [] := List.length_eq_zero.mp (Nat.le_zero.mp h₁)
    subst hb
    cases fuel₂ <;> simp [readLinesAux, ReadLine]
  | succ n ih =>
    cases fuel₂ with
    | zero =>
      have hb : buf = [] := List.length_eq_zero.mp (Nat.le_zero.mp h₂)
      subst hb
      simp [readLinesAux, ReadLine]
    | succ m =>
      simp only [readLinesAux]
      cases hr : ReadLine buf with
      | none => rfl
      | some lr =>
        obtain ⟨line, rest⟩ := lr
        have := ReadLine_length buf line rest hr
        simp only
        rw [ih m rest (by omega) (by omega)]

/-! ## Loading the prefix file -/

theorem loadLine_valueAt (parsecidr : GoString → Option Bits) (decode : GoString → Decoded)
    (st st' : Node × Nat) (line : GoString)
    (h : loadLine parsecidr decode st line = Result.ok st') (q : Bits) :
    st'.1.valueAt q = (st.1.valueAt q).orElse
      (fun _ => firstEntry ((lineEntry parsecidr decode line).toList) q) := by
  unfold loadLine at h
  unfold lineEntry
  by_cases hc : line.head? = some 35
  · simp only [hc, if_true, Result.ok.injEq] at h
    subst h
    simp [firstEntry, hc]
  · simp only [hc, if_false] at h ⊢
    cases hd : decode (splitLine line).2 with
    | error =>
      simp only [hd, Result.ok.injEq] at h
      subst h
      simp [firstEntry]
    | nilMap => simp [hd] at h
    | object m =>
      simp only [hd] at h ⊢
      cases hp : parsecidr (splitLine line).1 with
      | none =>
        simp only [AddCIDRb, hp, Result.ok.injEq] at h
        subst h
        simp [firstEntry]
      | some key =>
        cases hi : st.1.insert key (Data.set m (ascii "prefix") (Value.str (splitLine line).1)) with
        | none =>
          simp only [AddCIDRb, hp, hi, Result.ok.injEq] at h
          subst h
          have hbusy := (Node.insert_eq_none_iff _ _ _).mp hi
          by_cases hq : key = q
          · subst hq
            cases hv : st.1.valueAt key with
            | none => exact absurd hv hbusy
            | some m' => simp
          · simp [firstEntry, hq]
        | some t' =>
          simp only [AddCIDRb, hp, hi, Result.ok.injEq] at h
          subst h
          have hfree : st.1.valueAt key = none := by
            by_contra hne
            have := (Node.insert_eq_none_iff st.1 key
              (Data.set m (ascii "prefix") (Value.str (splitLine line).1))).mpr hne
            rw [hi] at this
            exact Option.noConfusion this
          rw [Node.valueAt_insert _ _ _ _ hi q]
          by_cases hq : q = key
          · subst hq
            simp [firstEntry, hfree]
          · have hq' : ¬ key = q := fun h => hq h.symm
            simp [firstEntry, hq, hq']

theorem firstEntry_append (xs ys : List (Bits × Meta)) (q : Bits) :
    firstEntry (xs ++ ys) q = (firstEntry xs q).orElse (fun _ => firstEntry ys q) := by
  unfold firstEntry
  rw [List.find?_append]
  cases List.find? (fun x => decide (x.1 = q)) xs <;> simp

theorem loadLines_valueAt (parsecidr : GoString → Option Bits) (decode : GoString → Decoded)
    (lines : List GoString) (st st' : Node × Nat)
    (h : loadLines parsecidr decode st lines = Result.ok st') (q : Bits) :
    st'.1.valueAt q = (st.1.valueAt q).orElse
      (fun _ => firstEntry (lines.filterMap (lineEntry parsecidr decode)) q) := by
  induction lines generalizing st with
  | nil =>
    simp only [loadLines, Result.ok.injEq] at h
    subst h
    simp [firstEntry]
  | cons line rest ih =>
    unfold loadLines at h
    cases hl : loadLine parsecidr decode st line with
    | ok st1 =>
      simp only [hl] at h
      rw [ih st1 h, loadLine_valueAt parsecidr decode st st1 line hl q]
      have hsplit : List.filterMap (lineEntry parsecidr decode) (line :: rest)
          = (lineEntry parsecidr decode line).toList
            ++ List.filterMap (lineEntry parsecidr decode) rest := by
        cases hle : lineEntry parsecidr decode line <;> simp [List.filterMap_cons, hle]
      rw [hsplit, firstEntry_append]
      cases st.1.valueAt q <;> simp
    | err msg => simp [hl] at h
    | panic msg => simp [hl] at h

/-- The tree that `loadTree` installs binds every prefix to the metadata of the first
line of the file that defines it, and binds nothing else. -/
theorem loadTree_valueAt (parsecidr : GoString → Option Bits) (decode : GoString → Decoded)
    (p p' : LPMProc) (content : List UInt8)
    (h : p.loadTree parsecidr decode (some content) = Result.ok p') (q : Bits) :
    p'.Tree.valueAt q = firstEntry (fileEntries parsecidr decode content) q := by
  unfold LPMProc.loadTree at h
  cases hl : loadLines parsecidr decode (NewTree 0, 1) (readLines content) with
  | ok st =>
    simp only [hl, Result.ok.injEq] at h
    subst h
    have := loadLines_valueAt parsecidr decode _ _ _ hl q
    simp only [Node.valueAt_NewTree] at this
    simpa [fileEntries] using this
  | err msg => simp [hl] at h
  | panic msg => simp [hl] at h

theorem firstEntry_eq_none_iff (entries : List (Bits × Meta)) (q : Bits) :
    firstEntry entries q = none ↔ ∀ x ∈ entries, x.1 ≠ q := by
  simp [firstEntry, List.find?_eq_none]

/-! ## Lookups -/

theorem Node.find_eq_none_iff (t : Node) (a : Bits) :
    t.find a none = none ↔ ∀ q, q <+: a → t.valueAt q = none := by
  rcases Node.find_spec t a none with ⟨q, m, hq, hv, _, hf⟩ | ⟨hnone, hf⟩
  · constructor
    · intro h; rw [h] at hf; exact Option.noConfusion hf
    · intro h; rw [h q hq] at hv; exact Option.noConfusion hv
  · exact ⟨fun _ => hnone, fun _ => hf⟩

/-- C1. Longest prefix wins. After loadTree has loaded a prefix file, for every text that
the tree parses as an address, the lookup of the LPM stage succeeds and the metadata it
uses to write the output fields of an event field holding that text is the metadata of the
longest prefix defined by the file that contains the address (the metadata of the first
line defining that prefix); it is nil exactly when no prefix defined by the file contains
the address. -/
theorem lpm_longest_prefix_wins (parsecidr : GoString → Option Bits)
    (decode : GoString → Decoded) (p p' : LPMProc) (content : List UInt8)
    (what : GoString) (a : Bits)
    (hload : p.loadTree parsecidr decode (some content) = Result.ok p')
    (hparse : parsecidr what = some a) :
    ∃ best : Option Meta,
      FindCIDR parsecidr p'.Tree what = Result.ok best ∧
      (∀ e ifield, Data.get e ifield = some (Value.str what) →
        p'.lookupField parsecidr e ifield
          = LPMProc.writeOutFields p'.OutFields ifield best e) ∧
      (∀ m, best = some m →
        ∃ q, q <+: a ∧ firstEntry (fileEntries parsecidr decode content) q = some m ∧
          ∀ x ∈ fileEntries parsecidr decode content, x.1 <+: a → x.1.length ≤ q.length) ∧
      (best = none → ∀ x ∈ fileEntries parsecidr decode content, ¬ x.1 <+: a) := by
  have hval := loadTree_valueAt parsecidr decode p p' content hload
  have hfind : FindCIDR parsecidr p'.Tree what = Result.ok (p'.Tree.find a none) := by
    simp [FindCIDR, hparse]
  refine ⟨p'.Tree.find a none, hfind, ?_, ?_, ?_⟩
  · intro e ifield he
    simp [LPMProc.lookupField, he, hfind]
  · intro m hm
    rcases Node.find_spec p'.Tree a none with ⟨q, m', hq, hv, hmax, hf⟩ | ⟨_, hf⟩
    · rw [hm] at hf
      cases hf
      refine ⟨q, hq, ?_, ?_⟩
      · rw [← hval]; exact hv
      · intro x hx hxa
        apply hmax x.1 hxa
        rw [hval]
        intro hnone
        exact (firstEntry_eq_none_iff _ _).mp hnone x hx rfl
    · rw [hm] at hf
      exact Option.noConfusion hf
  · intro hnone x hx hxa
    have := (Node.find_eq_none_iff p'.Tree a).mp hnone x.1 hxa
    rw [hval] at this
    exact (firstEntry_eq_none_iff _ _).mp this x hx rfl

set_option maxRecDepth 100000 in
/-- C1 on the addresses of the tests: with a file holding 176.52.166.0/24 (outer) and
176.52.166.192/26 (inner), the address 176.52.166.195 is enriched with the metadata of the
inner prefix and 176.52.166.10 with that of the outer one. -/
theorem lpm_longest_prefix_wins_witness :
    testLPM.loadTree parsecidr4 jsonDecode (some nestedPrefixFile) = Result.ok testLPMLoaded ∧
    parsecidr4 (ascii "176.52.166.195") = some (leadingBits 2956240579 32) ∧
    (∃ best : Option Meta,
      FindCIDR parsecidr4 testLPMLoaded.Tree (ascii "176.52.166.195") = Result.ok best ∧
      (∀ e ifield, Data.get e ifield = some (Value.str (ascii "176.52.166.195")) →
        testLPMLoaded.lookupField parsecidr4 e ifield
          = LPMProc.writeOutFields testLPMLoaded.OutFields ifield best e) ∧
      (∀ m, best = some m →
        ∃ q, q <+: leadingBits 2956240579 32 ∧
          firstEntry (fileEntries parsecidr4 jsonDecode nestedPrefixFile) q = some m ∧
          ∀ x ∈ fileEntries parsecidr4 jsonDecode nestedPrefixFile,
            x.1 <+: leadingBits 2956240579 32 → x.1.length ≤ q.length) ∧
      (best = none → ∀ x ∈ fileEntries parsecidr4 jsonDecode nestedPrefixFile,
        ¬ x.1 <+: leadingBits 2956240579 32)) ∧
    Data.get (testLPMLoaded.processEvent parsecidr4
        [(ascii "src", Value.str (ascii "176.52.166.195"))]) (ascii "_src_comment")
      = some (Value.str (ascii "v4 inner-range")) ∧
    Data.get (testLPMLoaded.processEvent parsecidr4
        [(ascii "src", Value.str (ascii "176.52.166.10"))]) (ascii "_src_comment")
      = some (Value.str (ascii "v4 outer-range")) ∧
    Data.get (testLPMLoaded.processEvent parsecidr4
        [(ascii "src", Value.str (ascii "176.52.166.10"))]) (ascii "_src_prefix")
      = some (Value.str (ascii "176.52.166.0/24")) :=
  ⟨by rfl, by rfl,
   lpm_longest_prefix_wins parsecidr4 jsonDecode testLPM testLPMLoaded nestedPrefixFile
     (ascii "176.52.166.195") (leadingBits 2956240579 32) (by rfl) (by rfl),
   by rfl, by rfl, by rfl⟩

/-! ## Unmatched addresses -/

theorem Data.get_set_self (m : Data) (k : GoString) (v : Value) :
    Data.get (Data.set m k v) k = some v := by
  induction m with
  | nil => simp [Data.set, Data.get]
  | cons kv rest ih =>
    obtain ⟨k', v'⟩ := kv
    by_cases h : k' = k
    · simp [Data.set, Data.get, h]
    · simp [Data.set, Data.get, h, ih]

theorem Data.get_set_ne (m : Data) (k k' : GoString) (v : Value) (h : k ≠ k') :
    Data.get (Data.set m k v) k' = Data.get m k' := by
  induction m with
  | nil => simp [Data.set, Data.get, h]
  | cons kv rest ih =>
    obtain ⟨k1, v1⟩ := kv
    by_cases h1 : k1 = k
    · subst h1
      simp [Data.set, Data.get, h]
    · simp only [Data.set, h1, if_false, Data.get]
      rw [ih]

/-- Writing the output fields of an input field leaves alone every key that is not one of
its destination keys. -/
theorem writeOutFields_get_other (outFields : List LPMOutField) (ifield : GoString)
    (meta : Option Meta) (e : Data) (key : GoString)
    (h : ∀ t ∈ outFields, LPMProc.new_field t ifield ≠ key) :
    Data.get (LPMProc.writeOutFields outFields ifield meta e) key = Data.get e key := by
  unfold LPMProc.writeOutFields
  induction outFields generalizing e with
  | nil => rfl
  | cons t rest ih =>
    rw [List.foldl_cons, ih _ (fun t' ht' => h t' (List.mem_cons_of_mem _ ht'))]
    cases meta <;> exact Data.get_set_ne _ _ _ _ (h t (List.mem_cons_self _ _))

/-- When the lookup found nothing, every destination key of the input field holds the
empty string afterwards. -/
theorem writeOutFields_none_get (outFields : List LPMOutField) (ifield : GoString)
    (e : Data) (key : GoString)
    (h : (∃ t ∈ outFields, LPMProc.new_field t ifield = key) ∨
      Data.get e key = some (Value.str [])) :
    Data.get (LPMProc.writeOutFields outFields ifield none e) key = some (Value.str []) := by
  unfold LPMProc.writeOutFields
  induction outFields generalizing e with
  | nil =>
    rcases h with ⟨t, ht, _⟩ | h
    · cases ht
    · exact h
  | cons t rest ih =>
    rw [List.foldl_cons]
    apply ih
    by_cases hk : LPMProc.new_field t ifield = key
    · right
      subst hk
      exact Data.get_set_self _ _ _
    · rcases h with ⟨t', ht', hk'⟩ | h
      · left
        rcases List.mem_cons.mp ht' with rfl | hmem
        · exact absurd hk' hk
        · exact ⟨t', hmem, hk'⟩
      · right
        show Data.get (Data.set e (LPMProc.new_field t ifield) (Value.str [])) key = _
        rw [Data.get_set_ne _ _ _ _ hk]
        exact h

theorem lookupField_get_other (parsecidr : GoString → Option Bits) (p : LPMProc) (e : Data)
    (ifield key : GoString) (h : ∀ t ∈ p.OutFields, LPMProc.new_field t ifield ≠ key) :
    Data.get (p.lookupField parsecidr e ifield) key = Data.get e key := by
  unfold LPMProc.lookupField
  split
  · split
    · exact writeOutFields_get_other _ _ _ _ _ h
    · rfl
  · rfl

theorem processFields_unmatched (parsecidr : GoString → Option Bits) (p : LPMProc)
    (f what key : GoString) (fields : List GoString)
    (hfind : FindCIDR parsecidr p.Tree what = Result.ok none)
    (hkey : ∃ t ∈ p.OutFields, LPMProc.new_field t f = key)
    (hsrc : ∀ g ∈ fields, ∀ t ∈ p.OutFields, LPMProc.new_field t g ≠ f)
    (hdst : ∀ g ∈ fields, g ≠ f → ∀ t ∈ p.OutFields, LPMProc.new_field t g ≠ key)
    (e : Data) (he : Data.get e f = some (Value.str what))
    (h : f ∈ fields ∨ Data.get e key = some (Value.str [])) :
    Data.get (fields.foldl (LPMProc.lookupField parsecidr p) e) key = some (Value.str []) := by
  induction fields generalizing e with
  | nil =>
    rcases h with h | h
    · cases h
    · exact h
  | cons g rest ih =>
    rw [List.foldl_cons]
    have hf' : Data.get (p.lookupField parsecidr e g) f = some (Value.str what) := by
      rw [lookupField_get_other parsecidr p e g f (hsrc g (List.mem_cons_self _ _))]
      exact he
    apply ih (fun g' hg' => hsrc g' (List.mem_cons_of_mem _ hg'))
      (fun g' hg' => hdst g' (List.mem_cons_of_mem _ hg')) _ hf'
    by_cases hg : g = f
    · right
      subst hg
      have : p.lookupField parsecidr e g = LPMProc.writeOutFields p.OutFields g none e := by
        simp [LPMProc.lookupField, he, hfind]
      rw [this]
      exact writeOutFields_none_get _ _ _ _ (Or.inl hkey)
    · rcases h with h | h
      · left
        rcases List.mem_cons.mp h with rfl | hmem
        · exact absurd rfl hg
        · exact hmem
      · right
        rw [lookupField_get_other parsecidr p e g key
          (hdst g (List.mem_cons_self _ _) hg)]
        exact h

/-- C2, amended. For every event, every configured input field f whose value in the event
is the text of an address contained in no prefix of the tree, and every configured
output-field template t: if no destination key of any input field is f itself, and no
other input field has the destination key of t and f among its destination keys, then
after the LPM stage has processed the event the destination key of t and f is present and
holds the empty string. -/
theorem lpm_unmatched_gives_empty (parsecidr : GoString → Option Bits) (p : LPMProc)
    (e : Data) (f what : GoString) (a : Bits) (t : LPMOutField)
    (hf : f ∈ p.InFields) (ht : t ∈ p.OutFields)
    (he : Data.get e f = some (Value.str what))
    (hparse : parsecidr what = some a)
    (hnone : ∀ q, q <+: a → p.Tree.valueAt q = none)
    (hsrc : ∀ g ∈ p.InFields, ∀ t' ∈ p.OutFields, LPMProc.new_field t' g ≠ f)
    (hdst : ∀ g ∈ p.InFields, g ≠ f →
      ∀ t' ∈ p.OutFields, LPMProc.new_field t' g ≠ LPMProc.new_field t f) :
    Data.get (p.processEvent parsecidr e) (LPMProc.new_field t f) = some (Value.str []) := by
  have hfind : FindCIDR parsecidr p.Tree what = Result.ok none := by
    simp [FindCIDR, hparse, (Node.find_eq_none_iff p.Tree a).mpr hnone]
  exact processFields_unmatched parsecidr p f what _ p.InFields hfind ⟨t, ht, rfl⟩ hsrc hdst
    e he (Or.inl hf)

set_option maxRecDepth 100000 in
/-- C2 amended, on the stage of the tests: the address 1.2.3.4 under `dst` lies in no
prefix of the file, and the key `_dst_asn` holds the empty string afterwards. -/
theorem lpm_unmatched_gives_empty_witness :
    parsecidr4 (ascii "1.2.3.4") = some (leadingBits 16909060 32) ∧
    (∀ q, q <+: leadingBits 16909060 32 → testLPMLoaded.Tree.valueAt q = none) ∧
    Data.get (testLPMLoaded.processEvent parsecidr4
        [(ascii "src", Value.str (ascii "176.52.166.10")),
         (ascii "dst", Value.str (ascii "1.2.3.4"))]) (ascii "_dst_asn")
      = some (Value.str []) :=
  ⟨by rfl,
   (Node.find_eq_none_iff testLPMLoaded.Tree (leadingBits 16909060 32)).mp (by rfl),
   lpm_unmatched_gives_empty parsecidr4 testLPMLoaded
     [(ascii "src", Value.str (ascii "176.52.166.10")),
      (ascii "dst", Value.str (ascii "1.2.3.4"))]
     (ascii "dst") (ascii "1.2.3.4") (leadingBits 16909060 32)
     ⟨ascii "_\x7b\x7bin_field\x7d\x7d_asn", ascii "asn"⟩
     (by decide) (by decide) (by rfl) (by rfl)
     ((Node.find_eq_none_iff testLPMLoaded.Tree (leadingBits 16909060 32)).mp (by rfl))
     (by decide) (by decide)⟩

set_option maxRecDepth 100000 in
/-- C2 as stated fails when two input fields share a destination key: with the input
fields `src` and `dst`, the single template `asn` (no placeholder) and a tree holding
10.0.0.0/8 with asn 64512, the event with src = 192.168.1.1 (in no prefix) and
dst = 10.1.2.3 ends with the key `asn` holding 64512, not the empty string. -/
theorem lpm_unmatched_overwritten_by_later_field :
    ascii "src" ∈ sharedKeyLPM.InFields ∧
    (⟨ascii "asn", ascii "asn"⟩ : LPMOutField) ∈ sharedKeyLPM.OutFields ∧
    Data.get [(ascii "src", Value.str (ascii "192.168.1.1")),
        (ascii "dst", Value.str (ascii "10.1.2.3"))] (ascii "src")
      = some (Value.str (ascii "192.168.1.1")) ∧
    parsecidr4 (ascii "192.168.1.1") = some (leadingBits 3232235777 32) ∧
    (∀ q, q <+: leadingBits 3232235777 32 → sharedKeyLPM.Tree.valueAt q = none) ∧
    Data.get (sharedKeyLPM.processEvent parsecidr4
        [(ascii "src", Value.str (ascii "192.168.1.1")),
         (ascii "dst", Value.str (ascii "10.1.2.3"))])
        (LPMProc.new_field ⟨ascii "asn", ascii "asn"⟩ (ascii "src"))
      = some (Value.number (ascii "64512")) ∧
    Data.get (sharedKeyLPM.processEvent parsecidr4
        [(ascii "src", Value.str (ascii "192.168.1.1")),
         (ascii "dst", Value.str (ascii "10.1.2.3"))])
        (LPMProc.new_field ⟨ascii "asn", ascii "asn"⟩ (ascii "src"))
      ≠ some (Value.str []) :=
  ⟨by decide, by decide, by rfl, by rfl,
   (Node.find_eq_none_iff sharedKeyLPM.Tree (leadingBits 3232235777 32)).mp (by rfl),
   by rfl,
   fun h => Value.noConfusion (Option.some.inj ((by rfl :
     some (Value.number (ascii "64512")) = Data.get (sharedKeyLPM.processEvent parsecidr4
        [(ascii "src", Value.str (ascii "192.168.1.1")),
         (ascii "dst", Value.str (ascii "10.1.2.3"))])
        (LPMProc.new_field ⟨ascii "asn", ascii "asn"⟩ (ascii "src"))).trans h))⟩

/-! ## Malformed lines -/

set_option maxRecDepth 100000 in
/-- C4, evaluated on the code: the metadata text `null` decodes without error to the nil
map, and loadTree panics on the assignment of the key `prefix` for a file whose second
line is `10.0.0.0/8 null`, between two well-formed lines; the same file without that
line loads. -/
theorem loadTree_panics_on_null_metadata :
    jsonDecode (ascii "null") = Decoded.nilMap ∧
    testLPM.loadTree parsecidr4 jsonDecode (some (ascii
        ("176.52.166.0/24 \x7b\"asn\": 1\x7d\n"
          ++ "10.0.0.0/8 null\n"
          ++ "176.52.166.192/26 \x7b\"asn\": 2\x7d\n")))
      = Result.panic "assignment to entry in nil map" ∧
    (∃ p, testLPM.loadTree parsecidr4 jsonDecode (some (ascii
        ("176.52.166.0/24 \x7b\"asn\": 1\x7d\n"
          ++ "176.52.166.192/26 \x7b\"asn\": 2\x7d\n")))
      = Result.ok p) :=
  ⟨by rfl, by rfl, ⟨_, by rfl⟩⟩

/-! ## The digest stage -/

/-- C5, evaluated on the code: for every digest function, every salt and every text s
under the input field, the value stored under the output field is the bytes of s and of
the salt followed by the digest of the empty input, not the digest of s and the salt. -/
theorem md5_stores_input_and_empty_digest (md5 : List UInt8 → List UInt8)
    (inField outField salt s : GoString) :
    Md5Proc.processEvent md5 ⟨[inField], [outField], salt⟩ [(inField, Value.str s)]
      = Result.ok (Data.set [(inField, Value.str s)] outField
          (Value.bytes (s ++ salt ++ md5 []))) ∧
    (s ++ salt ++ md5 []).length = s.length + salt.length + (md5 []).length := by
  constructor
  · simp [Md5Proc.processEvent, Md5Proc.fields, Data.get, hashSum]
  · simp only [List.length_append]

/-! ## The CSV codec in convert mode -/

theorem storeField_no_text (ParseFloat : GoString → Option Float64) (c : CSVLineCodec)
    (hc : c.Convert = true) (json_data : Data) (h v : GoString)
    (hno : ∀ k s, Data.get json_data k ≠ some (Value.str s)) :
    ∀ k s, Data.get (c.storeField ParseFloat json_data h v) k ≠ some (Value.str s) := by
  intro k s
  unfold CSVLineCodec.storeField
  simp only [hc, Bool.not_true, Bool.false_eq_true, if_false]
  cases ParseInt v with
  | some tmp =>
    by_cases hk : h = k
    · subst hk; rw [Data.get_set_self]; simp
    · rw [Data.get_set_ne _ _ _ _ hk]; exact hno k s
  | none =>
    cases ParseFloat v with
    | some tmpf =>
      by_cases hk : h = k
      · subst hk; rw [Data.get_set_self]; simp
      · rw [Data.get_set_ne _ _ _ _ hk]; exact hno k s
    | none => exact hno k s

theorem foldl_storeField_no_text (ParseFloat : GoString → Option Float64) (c : CSVLineCodec)
    (hc : c.Convert = true) (pairs : List (GoString × GoString)) (json_data : Data)
    (hno : ∀ k s, Data.get json_data k ≠ some (Value.str s)) :
    ∀ k s, Data.get (pairs.foldl
      (fun json_data hv => c.storeField ParseFloat json_data hv.1 hv.2) json_data) k
        ≠ some (Value.str s) := by
  induction pairs generalizing json_data with
  | nil => exact hno
  | cons hv rest ih =>
    rw [List.foldl_cons]
    exact ih _ (storeField_no_text ParseFloat c hc json_data hv.1 hv.2 hno)

/-- C6, evaluated on the code: in convert mode, for every float parser and every record,
no key of the decoded mapping holds a text; a record of one field decodes to the integer,
else to the float, else to the empty mapping: a field that parses neither as an integer
nor as a float (`abc` is no integer) is not stored at all. -/
theorem csv_convert_drops_unparsed_text (ParseFloat : GoString → Option Float64)
    (headers : List GoString) (sep : UInt8) (record : List GoString) (h v : GoString) :
    (∀ k s, Data.get (CSVLineCodec.decodeRecord ParseFloat ⟨headers, sep, true⟩ record) k
      ≠ some (Value.str s)) ∧
    CSVLineCodec.decodeRecord ParseFloat ⟨[h], sep, true⟩ [v]
      = (match ParseInt v with
        | some i => [(h, Value.int64 i)]
        | none =>
          match ParseFloat v with
          | some f => [(h, Value.float64 f)]
          | none => []) ∧
    ParseInt (ascii "abc") = none := by
  refine ⟨?_, ?_, by decide⟩
  · exact foldl_storeField_no_text ParseFloat ⟨headers, sep, true⟩ rfl _ []
      (fun k s => by simp [Data.get])
  · cases hi : ParseInt v with
    | some i => simp [CSVLineCodec.decodeRecord, CSVLineCodec.storeField, hi, Data.set]
    | none =>
      cases hf : ParseFloat v with
      | some f => simp [CSVLineCodec.decodeRecord, CSVLineCodec.storeField, hi, hf, Data.set]
      | none => simp [CSVLineCodec.decodeRecord, CSVLineCodec.storeField, hi, hf]

/-! ## The constructor of the LPM stage -/

theorem NewLPMProc_reload_minutes (cfg : Data) (p : LPMProc)
    (h : NewLPMProc cfg = Result.ok p) :
    ∃ f, Data.index cfg (ascii "reload_minutes") = Value.float64 f ∧
      p.ReloadMinutes = f.toInt := by
  unfold NewLPMProc at h
  dsimp only at h
  repeat' split at h
  all_goals first
    | exact Result.noConfusion h
    | (cases h; exact ⟨_, by assumption, rfl⟩)

theorem InterfaceToStringArray_ne_err (a : List Value) :
    ∀ msg, InterfaceToStringArray a ≠ Result.err msg := by
  induction a with
  | nil => intro msg; simp [InterfaceToStringArray]
  | cons v rest ih =>
    intro msg h
    cases v
    case str s =>
      simp only [InterfaceToStringArray] at h
      cases hr : InterfaceToStringArray rest with
      | ok ss => simp [hr] at h
      | err m => exact ih m hr
      | panic m => simp [hr] at h
    all_goals simp [InterfaceToStringArray] at h

theorem outFieldsOf_ne_err (a : List Value) :
    ∀ msg, outFieldsOf a ≠ Result.err msg := by
  induction a with
  | nil => intro msg; simp [outFieldsOf]
  | cons v rest ih =>
    intro msg h
    cases v
    case obj v2 =>
      simp only [outFieldsOf] at h
      split at h
      · cases hr : outFieldsOf rest with
        | ok fs => simp [hr] at h
        | err m => exact ih m hr
        | panic m => simp [hr] at h
      · exact Result.noConfusion h
    all_goals simp [outFieldsOf] at h

theorem NewLPMProc_ne_err (cfg : Data) (msg : String) : NewLPMProc cfg ≠ Result.err msg := by
  intro h
  unfold NewLPMProc at h
  dsimp only at h
  split at h
  · split at h
    · split at h
      · split at h <;> exact Result.noConfusion h
      · rename_i hout
        split at hout
        · exact outFieldsOf_ne_err _ _ hout
        · exact Result.noConfusion hout
      · exact Result.noConfusion h
    · rename_i hin
      split at hin
      · exact InterfaceToStringArray_ne_err _ _ hin
      · exact Result.noConfusion hin
    · exact Result.noConfusion h
  · exact Result.noConfusion h

/-- C8, evaluated on the code: for every configuration without a `reload_minutes` entry
the constructor NewLPMProc panics and returns no stage, whatever else the configuration
holds. -/
theorem NewLPMProc_panics_without_reload_minutes (cfg : Data)
    (h : Data.get cfg (ascii "reload_minutes") = none) :
    ∃ msg, NewLPMProc cfg = Result.panic msg := by
  cases hres : NewLPMProc cfg with
  | ok p =>
    obtain ⟨f, hf, _⟩ := NewLPMProc_reload_minutes cfg p hres
    simp [Data.index, h] at hf
  | err msg => exact absurd hres (NewLPMProc_ne_err cfg msg)
  | panic msg => exact ⟨msg, rfl⟩

/-- C8 on the configuration that holds only a text `filepath`: the unchecked assertion
on `reload_minutes` panics. -/
theorem NewLPMProc_panics_without_reload_minutes_witness :
    Data.get [(ascii "filepath", Value.str (ascii "/tmp/prefix-asn.txt"))]
      (ascii "reload_minutes") = none ∧
    (∃ msg, NewLPMProc [(ascii "filepath", Value.str (ascii "/tmp/prefix-asn.txt"))]
      = Result.panic msg) ∧
    NewLPMProc [(ascii "filepath", Value.str (ascii "/tmp/prefix-asn.txt"))]
      = Result.panic "interface conversion: interface {} is not float64" :=
  ⟨by rfl,
   NewLPMProc_panics_without_reload_minutes
     [(ascii "filepath", Value.str (ascii "/tmp/prefix-asn.txt"))] (by rfl),
   by rfl⟩

/-! ## Reload atomicity -/

theorem Sys.init_inv (parsecidr : GoString → Option Bits) (decode : GoString → Decoded)
    (p : LPMProc) (file : Option (List UInt8)) (e : Data) :
    (Sys.init p e).Inv parsecidr decode p file e := by
  simp [Sys.Inv, Sys.init]

theorem stepRun_inv (parsecidr : GoString → Option Bits) (decode : GoString → Decoded)
    (p : LPMProc) (file : Option (List UInt8)) (e : Data) (s s' : Sys)
    (hinv : s.Inv parsecidr decode p file e) (hstep : stepRun parsecidr p s = some s') :
    s'.Inv parsecidr decode p file e := by
  obtain ⟨tree, lock, rpc, lpc, obs⟩ := s
  obtain ⟨hl, hr⟩ := hinv
  cases rpc with
  | start e0 =>
    cases lock with
    | some t => simp [stepRun] at hstep
    | none =>
      simp only [stepRun, Option.some.injEq] at hstep
      subst hstep
      simp only at hl hr
      obtain ⟨rfl, hobs, _⟩ := hr
      subst hobs
      refine ⟨?_, ?_⟩
      · cases lpc <;> simp_all
      · simp [LPMProc.processEvent]
  | inLoop rest e1 =>
    simp only at hr
    obtain ⟨hlock, hobs, hfold⟩ := hr
    cases rest with
    | cons ifield rest' =>
      simp only [stepRun, Option.some.injEq] at hstep
      subst hstep
      refine ⟨hl, hlock, ?_, ?_⟩
      · intro t ht
        rcases List.mem_append.mp ht with h | h
        · exact hobs t h
        · simpa using h
      · simpa using hfold
    | nil =>
      simp only [stepRun, Option.some.injEq] at hstep
      subst hstep
      simp only at hlock hobs hfold hl
      subst hlock
      refine ⟨?_, by simp, tree, ?_, hobs, ?_⟩
      · cases lpc <;> simp_all
      · cases lpc with
        | start => exact Or.inl hl.1
        | finished => exact Or.inr hl.2
        | locked content => simp at hl
        | building r c => simp at hl
        | crashed => simp at hl
      · simpa using hfold
  | finished e1 => simp [stepRun] at hstep

theorem stepLoad_inv (parsecidr : GoString → Option Bits) (decode : GoString → Decoded)
    (p : LPMProc) (file : Option (List UInt8)) (e : Data) (s s' : Sys)
    (hinv : s.Inv parsecidr decode p file e)
    (hstep : stepLoad parsecidr decode file s = some s') :
    s'.Inv parsecidr decode p file e := by
  obtain ⟨tree, lock, rpc, lpc, obs⟩ := s
  obtain ⟨hl, hr⟩ := hinv
  cases lpc with
  | start =>
    simp only at hl
    obtain ⟨htree, hlock⟩ := hl
    cases file with
    | none =>
      simp only [stepLoad, Option.some.injEq] at hstep
      subst hstep
      exact ⟨⟨hlock, p, rfl, htree⟩, hr⟩
    | some content =>
      cases lock with
      | some t => simp [stepLoad] at hstep
      | none =>
        simp only [stepLoad, Option.some.injEq] at hstep
        subst hstep
        refine ⟨⟨rfl, rfl⟩, ?_⟩
        cases rpc <;> simp_all
  | locked content =>
    simp only at hl
    obtain ⟨hfile, hlock⟩ := hl
    simp only [stepLoad, Option.some.injEq] at hstep
    subst hstep
    refine ⟨⟨hlock, content, hfile, rfl⟩, ?_⟩
    cases rpc <;> simp_all
  | building rest count =>
    simp only at hl
    obtain ⟨hlock, content, hfile, hgoal⟩ := hl
    cases rest with
    | cons line rest' =>
      simp only [stepLoad] at hstep
      cases hline : loadLine parsecidr decode (tree, count) line with
      | ok st =>
        simp only [hline, Option.some.injEq] at hstep
        subst hstep
        refine ⟨⟨hlock, content, hfile, ?_⟩, ?_⟩
        · rw [← hgoal]
          simp [loadLines, hline]
        · cases rpc <;> simp_all
      | err msg =>
        simp only [hline, Option.some.injEq] at hstep
        subst hstep
        exact ⟨hlock, hr⟩
      | panic msg =>
        simp only [hline, Option.some.injEq] at hstep
        subst hstep
        exact ⟨hlock, hr⟩
    | nil =>
      simp only [stepLoad, Option.some.injEq] at hstep
      subst hstep
      refine ⟨⟨by simp, { p with Tree := tree }, ?_, rfl⟩, ?_⟩
      · subst hfile
        simp only [loadLines] at hgoal
        simp [LPMProc.loadTree, ← hgoal]
      · cases rpc <;> simp_all
  | finished => simp [stepLoad] at hstep
  | crashed => simp [stepLoad] at hstep

theorem step_inv (parsecidr : GoString → Option Bits) (decode : GoString → Decoded)
    (p : LPMProc) (file : Option (List UInt8)) (e : Data) (s : Sys) (t : Tid)
    (hinv : s.Inv parsecidr decode p file e) :
    (step parsecidr decode p file s t).Inv parsecidr decode p file e := by
  unfold step
  split
  · exact hinv
  · cases t with
    | run =>
      cases h : stepRun parsecidr p s with
      | none => simpa [h] using hinv
      | some s' => simpa [h] using stepRun_inv parsecidr decode p file e s s' hinv h
    | reload =>
      cases h : stepLoad parsecidr decode file s with
      | none => simpa [h] using hinv
      | some s' => simpa [h] using stepLoad_inv parsecidr decode p file e s s' hinv h

theorem runSchedule_inv (parsecidr : GoString → Option Bits) (decode : GoString → Decoded)
    (p : LPMProc) (file : Option (List UInt8)) (e : Data) (schedule : List Tid) (s : Sys)
    (hinv : s.Inv parsecidr decode p file e) :
    (runSchedule parsecidr decode p file schedule s).Inv parsecidr decode p file e := by
  induction schedule generalizing s with
  | nil => exact hinv
  | cons t rest ih => exact ih _ (step_inv parsecidr decode p file e s t hinv)

/-- C10. Reload atomicity: for every interleaving of a reload (loadTree) with the
processing of one event by the LPM stage, there is one tree, either the tree of the stage
before the reload or the complete tree that loadTree builds from the file, such that
every lookup made for the event so far read that tree, and the event that leaves the
critical section is the event enriched from that tree alone. -/
theorem lpm_reload_atomic (parsecidr : GoString → Option Bits) (decode : GoString → Decoded)
    (p : LPMProc) (file : Option (List UInt8)) (e : Data) (schedule : List Tid) :
    ∃ T : Node,
      (T = p.Tree ∨ ∃ p', p.loadTree parsecidr decode file = Result.ok p' ∧ T = p'.Tree) ∧
      (∀ t ∈ (runSchedule parsecidr decode p file schedule (Sys.init p e)).observed, t = T) ∧
      (∀ e', (runSchedule parsecidr decode p file schedule (Sys.init p e)).runPC
          = RunPC.finished e' →
        e' = LPMProc.processEvent parsecidr { p with Tree := T } e) := by
  have hinv := runSchedule_inv parsecidr decode p file e schedule _
    (Sys.init_inv parsecidr decode p file e)
  generalize runSchedule parsecidr decode p file schedule (Sys.init p e) = s at hinv
  obtain ⟨tree, lock, rpc, lpc, obs⟩ := s
  obtain ⟨hl, hr⟩ := hinv
  cases rpc with
  | start e0 =>
    simp only at hr
    refine ⟨p.Tree, Or.inl rfl, ?_, ?_⟩
    · simp [hr.2.1]
    · intro e' h; simp at h
  | inLoop rest e1 =>
    simp only at hr hl
    obtain ⟨hlock, hobs, _⟩ := hr
    subst hlock
    refine ⟨tree, ?_, hobs, ?_⟩
    · cases lpc with
      | start => exact Or.inl hl.1
      | finished => exact Or.inr hl.2
      | locked content => simp at hl
      | building r c => simp at hl
      | crashed => simp at hl
    · intro e' h; simp at h
  | finished e1 =>
    simp only at hr
    obtain ⟨_, T, hT, hobs, he⟩ := hr
    refine ⟨T, hT, hobs, ?_⟩
    intro e' h
    simp only [RunPC.finished.injEq] at h
    subst h
    exact he

set_option maxRecDepth 100000 in
/-- An interleaving on the stage and the file of the tests: the event arrives while the
reload holds the lock, waits, and is then enriched from the reloaded tree in both of its
lookups. -/
theorem runSchedule_after_reload_example :
    (runSchedule parsecidr4 jsonDecode testLPM (some nestedPrefixFile)
        [Tid.reload, Tid.run, Tid.reload, Tid.reload, Tid.run, Tid.reload, Tid.reload,
         Tid.reload, Tid.reload, Tid.run, Tid.run, Tid.run, Tid.run]
        (Sys.init testLPM [(ascii "src", Value.str (ascii "176.52.166.195"))])).observed.length
      = 2 ∧
    (match (runSchedule parsecidr4 jsonDecode testLPM (some nestedPrefixFile)
        [Tid.reload, Tid.run, Tid.reload, Tid.reload, Tid.run, Tid.reload, Tid.reload,
         Tid.reload, Tid.reload, Tid.run, Tid.run, Tid.run, Tid.run]
        (Sys.init testLPM [(ascii "src", Value.str (ascii "176.52.166.195"))])).runPC with
      | RunPC.finished e' => Data.get e' (ascii "_src_comment")
      | _ => none) = some (Value.str (ascii "v4 inner-range")) :=
  ⟨by rfl, by rfl⟩

/-! ## Stop semantics -/

theorem actStep_kind (admits encodes : Data → Bool) (ready : Bool) (s : Stage) (a : Act) :
    (actStep admits encodes ready s a).kind = s.kind := by
  cases a with
  | stage =>
    simp only [actStep, stageStep]
    repeat' split
    all_goals rfl
  | stop => rfl
  | send e => rfl

theorem runActs_kind (admits encodes : Data → Bool) (ready : Bool) (acts : List Act)
    (s : Stage) : (runActs admits encodes ready acts s).kind = s.kind := by
  induction acts generalizing s with
  | nil => rfl
  | cons a rest ih =>
    show (runActs admits encodes ready rest (actStep admits encodes ready s a)).kind = s.kind
    rw [ih, actStep_kind]

theorem stageStep_stop_inv (admits encodes : Data → Bool) (ready : Bool) (s : Stage)
    (hk : s.kind ≠ StageKind.UDPJSONOutput) (hinv : s.StopInv) :
    (stageStep admits encodes ready s).StopInv := by
  obtain ⟨kind, stop, pc, inq, handled, n⟩ := s
  obtain ⟨h0, h1⟩ := hinv
  simp only at hk h0 h1
  cases pc with
  | start =>
    have hn : n = 0 := h0 (Or.inl rfl)
    subst hn
    cases kind with
    | UDPJSONOutput => exact absurd rfl hk
    | FileJSONOutput => cases ready <;> exact ⟨fun _ => rfl, Nat.zero_le _⟩
    | Md5Proc => exact ⟨fun _ => rfl, Nat.zero_le _⟩
    | LPMProc => exact ⟨fun _ => rfl, Nat.zero_le _⟩
  | loopHead =>
    cases stop with
    | true =>
      have hstep : stageStep admits encodes ready ⟨kind, true, LoopPC.loopHead, inq, handled, n⟩
          = ⟨kind, true, LoopPC.returned, inq, handled, n⟩ := by
        cases kind with
        | UDPJSONOutput => exact absurd rfl hk
        | FileJSONOutput => rfl
        | Md5Proc => rfl
        | LPMProc => rfl
      rw [hstep]
      refine ⟨fun h => ?_, h1⟩
      rcases h with h | h | h <;> simp at h
    | false =>
      have hn : n = 0 := h0 (Or.inr (Or.inr rfl))
      subst hn
      have hstep : stageStep admits encodes ready ⟨kind, false, LoopPC.loopHead, inq, handled, 0⟩
          = ⟨kind, false, LoopPC.receive, inq, handled, 0⟩ := by
        cases kind with
        | UDPJSONOutput => exact absurd rfl hk
        | FileJSONOutput => rfl
        | Md5Proc => rfl
        | LPMProc => rfl
      rw [hstep]
      exact ⟨fun _ => rfl, Nat.zero_le _⟩
  | receive =>
    have hn : n = 0 := h0 (Or.inr (Or.inl rfl))
    subst hn
    cases inq with
    | nil => exact ⟨fun _ => rfl, Nat.zero_le _⟩
    | cons e rest =>
      cases stop with
      | true =>
        refine ⟨fun h => ?_, Nat.le_refl 1⟩
        rcases h with h | h | h <;> simp [stageStep] at h
      | false => exact ⟨fun _ => rfl, Nat.zero_le _⟩
  | returned => exact ⟨h0, h1⟩
  | panicked => exact ⟨h0, h1⟩

theorem actStep_stop_inv (admits encodes : Data → Bool) (ready : Bool) (s : Stage) (a : Act)
    (hk : s.kind ≠ StageKind.UDPJSONOutput) (hinv : s.StopInv) :
    (actStep admits encodes ready s a).StopInv := by
  cases a with
  | stage => exact stageStep_stop_inv admits encodes ready s hk hinv
  | stop =>
    obtain ⟨h0, h1⟩ := hinv
    refine ⟨fun h => ?_, h1⟩
    rcases h with h | h | h
    · exact h0 (Or.inl h)
    · exact h0 (Or.inr (Or.inl h))
    · simp [actStep] at h
  | send e => exact hinv

/-- A loop that reads the stop flag takes at most one event once the flag is set. -/
theorem checked_loop_inv (admits encodes : Data → Bool) (ready : Bool) (acts : List Act)
    (s : Stage) (hk : s.kind ≠ StageKind.UDPJSONOutput) (hinv : s.StopInv) :
    (runActs admits encodes ready acts s).StopInv := by
  induction acts generalizing s with
  | nil => exact hinv
  | cons a rest ih =>
    show (runActs admits encodes ready rest (actStep admits encodes ready s a)).StopInv
    apply ih
    · rw [actStep_kind]; exact hk
    · exact actStep_stop_inv admits encodes ready s a hk hinv

/-- The loop of the UDP stages is never left once it is entered. -/
theorem udp_loop_never_returns (admits encodes : Data → Bool) (acts : List Act) (s : Stage)
    (hk : s.kind = StageKind.UDPJSONOutput)
    (hpc : s.pc = LoopPC.start ∨ s.pc = LoopPC.loopHead ∨ s.pc = LoopPC.receive) :
    (runActs admits encodes true acts s).pc ≠ LoopPC.returned := by
  induction acts generalizing s with
  | nil =>
    show s.pc ≠ LoopPC.returned
    rcases hpc with h | h | h <;> simp [h]
  | cons a rest ih =>
    show (runActs admits encodes true rest (actStep admits encodes true s a)).pc
      ≠ LoopPC.returned
    apply ih
    · rw [actStep_kind]; exact hk
    · obtain ⟨kind, stop, pc, inq, handled, n⟩ := s
      simp only at hk hpc
      subst hk
      cases a with
      | stop => simpa [actStep] using hpc
      | send e => simpa [actStep] using hpc
      | stage =>
        rcases hpc with h | h | h <;> subst h <;> cases inq <;> simp [actStep, stageStep]

/-- C11, evaluated on the code. The loops of Md5Proc, LPMProc and FileJSONOutput read the
stop flag: under every sequence of actions they take at most one event from the input
channel while the flag is set, and at the head of the loop with the flag set their next
step returns from Run. The loop of UDPJSONOutput (and of the UDP stages built on it) has
no condition: once the connection is made, Run never returns under any sequence of
actions, and after the flag has been set in the running loop the three events sent next
are all taken and handled. -/
theorem udp_run_ignores_stop_flag (admits encodes : Data → Bool) (ready mustStop : Bool)
    (acts : List Act) (e₁ e₂ e₃ : Data) :
    (∀ kind, kind ≠ StageKind.UDPJSONOutput →
      (runActs admits encodes ready acts (Stage.init kind mustStop)).takenAfterStop ≤ 1) ∧
    (∀ s : Stage, s.kind ≠ StageKind.UDPJSONOutput → s.MustStop = true →
      s.pc = LoopPC.loopHead → (stageStep admits encodes ready s).pc = LoopPC.returned) ∧
    (runActs admits encodes true acts (Stage.init StageKind.UDPJSONOutput mustStop)).pc
      ≠ LoopPC.returned ∧
    (runActs (fun _ => true) (fun _ => true) true
        [Act.stage, Act.stage, Act.stop, Act.send e₁, Act.send e₂, Act.send e₃,
         Act.stage, Act.stage, Act.stage, Act.stage, Act.stage, Act.stage]
        (Stage.init StageKind.UDPJSONOutput false))
      = { kind := StageKind.UDPJSONOutput, MustStop := true, pc := LoopPC.receive, InQ := [],
          handled := [e₁, e₂, e₃], takenAfterStop := 3 } := by
  refine ⟨?_, ?_, ?_, rfl⟩
  · intro kind hk
    exact (checked_loop_inv admits encodes ready acts (Stage.init kind mustStop) hk
      ⟨fun _ => rfl, Nat.zero_le _⟩).2
  · intro s hk hstop hpc
    obtain ⟨kind, stop, pc, inq, handled, n⟩ := s
    simp only at hk hstop hpc
    subst hstop hpc
    cases kind with
    | UDPJSONOutput => exact absurd rfl hk
    | FileJSONOutput => rfl
    | Md5Proc => rfl
    | LPMProc => rfl
  · exact udp_loop_never_returns admits encodes acts _ rfl (Or.inl rfl)

/-! ## Codec round trips -/

/-- C7. Raw and String codecs: encoding what was decoded from any byte sequence b gives b
back, decoding what was encoded from a record holding exactly the single field of the
codec (`bytes` as a byte sequence for Raw, `message` as a text for String) gives the
record back, and no call on these inputs returns an error or panics. -/
theorem raw_string_codec_round_trip (b : List UInt8) :
    (RawLineCodec.FromBytes b).bind RawLineCodec.ToBytes = Result.ok b ∧
    (RawLineCodec.ToBytes [(ascii "bytes", Value.bytes b)]).bind RawLineCodec.FromBytes
      = Result.ok [(ascii "bytes", Value.bytes b)] ∧
    (StringLineCodec.FromBytes b).bind StringLineCodec.ToBytes = Result.ok b ∧
    (StringLineCodec.ToBytes [(ascii "message", Value.str b)]).bind StringLineCodec.FromBytes
      = Result.ok [(ascii "message", Value.str b)] ∧
    RawLineCodec.FromBytes b = Result.ok [(ascii "bytes", Value.bytes b)] ∧
    RawLineCodec.ToBytes [(ascii "bytes", Value.bytes b)] = Result.ok b ∧
    StringLineCodec.FromBytes b = Result.ok [(ascii "message", Value.str b)] ∧
    StringLineCodec.ToBytes [(ascii "message", Value.str b)] = Result.ok b :=
  ⟨rfl, rfl, rfl, rfl, rfl, rfl, rfl, rfl⟩

/-! ## Registry -/

/-- C9, evaluated on the code: after initialization the name "UDPCSVOutput" is bound to
NewUDPStrOutput, whose stage has the String codec as encoder; the constructor
NewUDPCSVOutput is bound to no name; the seven other names are bound to their own
constructors. -/
theorem registry_udpcsv_bound_to_str_constructor :
    initialRegistry.get (ascii "UDPCSVOutput") = some Ctor.NewUDPStrOutput ∧
    Ctor.NewUDPStrOutput.encoder = some CodecKind.StringLineCodec ∧
    (∀ name, initialRegistry.get name ≠ some Ctor.NewUDPCSVOutput) ∧
    initialRegistry.get (ascii "LPMProc") = some Ctor.NewLPMProc ∧
    initialRegistry.get (ascii "Md5Proc") = some Ctor.NewMd5Proc ∧
    initialRegistry.get (ascii "FileJSONOutput") = some Ctor.NewFileJSONOutput ∧
    initialRegistry.get (ascii "FileCSVOutput") = some Ctor.NewFileCSVOutput ∧
    initialRegistry.get (ascii "UDPJSONOutput") = some Ctor.NewUDPJSONOutput ∧
    initialRegistry.get (ascii "UDPRawOutput") = some Ctor.NewUDPRawOutput ∧
    initialRegistry.get (ascii "UDPStrOutput") = some Ctor.NewUDPStrOutput := by
  refine ⟨by decide, by decide, ?_, by decide, by decide, by decide, by decide, by decide,
    by decide, by decide⟩
  intro name
  have hreg : initialRegistry = [(ascii "LPMProc", Ctor.NewLPMProc),
      (ascii "Md5Proc", Ctor.NewMd5Proc), (ascii "FileJSONOutput", Ctor.NewFileJSONOutput),
      (ascii "FileCSVOutput", Ctor.NewFileCSVOutput),
      (ascii "UDPJSONOutput", Ctor.NewUDPJSONOutput),
      (ascii "UDPCSVOutput", Ctor.NewUDPStrOutput),
      (ascii "UDPRawOutput", Ctor.NewUDPRawOutput),
      (ascii "UDPStrOutput", Ctor.NewUDPStrOutput)] := by decide
  rw [hreg]
  simp only [Registry.get]
  repeat' split
  all_goals simp

end Gopipe
